import Mathlib

/-!
Verification development for the clinic-dashboard filtering and
aggregation core (the `Filters` and `DataProcessor` modules), plus the
file-format dispatch of `DataLoader` and the load step of `App`.

The JavaScript source is shallowly embedded: records are structures,
JS dynamically-typed cell values are an inductive `Value`, JS `Date`
objects are local calendar datetimes ordered lexicographically on
their fields (epoch-millisecond order coincides with this order for
valid local datetimes of one timezone), JS objects used as
string-keyed maps are association lists in property-creation order
read off through a `jsEntries` function reproducing the ECMA-262
enumeration order (array-index keys first, ascending, then the rest in
creation order), and the (stable) `Array.prototype.sort` is an
explicit stable insertion sort.
-/

/-- A dynamically typed cell value, as produced by the CSV/XLSX parsers
(`dynamicTyping`): `null`/`undefined` collapse to `vNull`, text stays a
string, numbers become rationals. -/
inductive Value : Type
  | vNull : Value
  | vStr : String → Value
  | vNum : Rat → Value
deriving DecidableEq, Repr

namespace Value

/-- JS truthiness of a cell value: `null`, `""` and `0` are falsy. -/
def truthy : Value → Bool
  | vNull => false
  | vStr s => !(s == "")
  | vNum q => !(q == 0)

/-- JS `String(v)` coercion of a cell value. -/
def toStr : Value → String
  | vNull => "null"
  | vStr s => s
  | vNum q => toString q

end Value

/-- A JS `Date` seen through its local calendar fields: year, month
(1..12), day of month, and milliseconds elapsed since local midnight.
Epoch-millisecond comparison of two valid local datetimes agrees with
lexicographic comparison of these fields. -/
structure DateTime where
  year : Int
  month : Int
  day : Int
  ms : Int
deriving DecidableEq, Repr

namespace DateTime

/-- Strict order on datetimes: lexicographic on (year, month, day, ms),
modelling numeric comparison of JS `Date` values. -/
def Lt (a b : DateTime) : Prop :=
  a.year < b.year ∨ (a.year = b.year ∧
    (a.month < b.month ∨ (a.month = b.month ∧
      (a.day < b.day ∨ (a.day = b.day ∧ a.ms < b.ms)))))

instance (a b : DateTime) : Decidable (Lt a b) := by
  unfold Lt; infer_instance

/-- Non-strict companion order. -/
def Le (a b : DateTime) : Prop :=
  a.year < b.year ∨ (a.year = b.year ∧
    (a.month < b.month ∨ (a.month = b.month ∧
      (a.day < b.day ∨ (a.day = b.day ∧ a.ms ≤ b.ms)))))

instance (a b : DateTime) : Decidable (Le a b) := by
  unfold Le; infer_instance

/-- The same calendar day at local midnight, `00:00:00.000` — what
`readFilterState` builds from the start-date input. -/
def startOfDay (d : DateTime) : DateTime := ⟨d.year, d.month, d.day, 0⟩

/-- The same calendar day at local `23:59:59.999` — what
`readFilterState` builds from the end-date input. -/
def endOfDay (d : DateTime) : DateTime := ⟨d.year, d.month, d.day, 86399999⟩

/-- A datetime whose millisecond-of-day field a real `Date` could carry. -/
def ValidMs (d : DateTime) : Prop := 0 ≤ d.ms ∧ d.ms ≤ 86399999

instance (d : DateTime) : Decidable (ValidMs d) := by
  unfold ValidMs; infer_instance

end DateTime

/-- One loaded clinic-visit record, after `DataLoader.processData`: the
date cell is a parsed `Date` or `null`, the age cell a number or `null`,
the employee number a string (empty when missing), and the remaining
cells raw dynamically-typed values. -/
structure Record where
  date : Option DateTime := none
  employee : String := ""
  age : Option Rat := none
  sex : Value := .vNull
  company : Value := .vNull
  month : Value := .vNull
  purpose : Value := .vNull
  findings : Value := .vNull
  icd : Value := .vNull
  label : Value := .vNull
deriving DecidableEq, Repr

/-- The filter criteria snapshot `Filters.state` as rebuilt by
`Filters.readFilterState`: six accepted-value string sets, an optional
date range, and an integer age range. -/
structure Criteria where
  companies : List String := []
  purposes : List String := []
  months : List String := []
  sexes : List String := []
  labels : List String := []
  findings : List String := []
  dateStart : Option DateTime := none
  dateEnd : Option DateTime := none
  ageMin : Int := 0
  ageMax : Int := 100
deriving DecidableEq, Repr

namespace Filters

/-- One accepted-value-set check of `Filters.applyFilters`: an empty
selection constrains nothing, otherwise the string-coerced cell value
must be a member of the selection. -/
def catPass (sel : List String) (v : Value) : Bool :=
  sel.isEmpty || sel.contains v.toStr

/-- The date-range check of `Filters.applyFilters`: it fires only when
both bounds are set and the row's date cell is a `Date`; a `null` date
passes through. -/
def datePass (c : Criteria) (r : Record) : Bool :=
  match c.dateStart, c.dateEnd with
  | some s, some e =>
    match r.date with
    | some d => if DateTime.Lt d s ∨ DateTime.Lt e d then false else true
    | none => true
  | _, _ => true

/-- The age-range check of `Filters.applyFilters`: a numeric age must
lie in `[ageMin, ageMax]`; a `null` age passes through. -/
def agePass (c : Criteria) (r : Record) : Bool :=
  match r.age with
  | some a => if a < (c.ageMin : Rat) ∨ (c.ageMax : Rat) < a then false else true
  | none => true

/-- The per-row predicate of `Filters.applyFilters`, in the source's
check order: company, purpose, month, sex, label, findings, date, age. -/
def rowPass (c : Criteria) (r : Record) : Bool :=
  catPass c.companies r.company &&
  catPass c.purposes r.purpose &&
  catPass c.months r.month &&
  catPass c.sexes r.sex &&
  catPass c.labels r.label &&
  catPass c.findings r.findings &&
  datePass c r &&
  agePass c r

/-- `Filters.applyFilters`: the subsequence of rows passing every check. -/
def applyFilters (c : Criteria) (data : List Record) : List Record :=
  data.filter (rowPass c)

/-- Fold computing the minimum of a nonempty datetime list — the value
`populateDateRange` obtains as `sorted[0]`. -/
def dtMinFold (x : DateTime) (l : List DateTime) : DateTime :=
  l.foldl (fun a b => if DateTime.Lt b a then b else a) x

/-- Fold computing the maximum of a nonempty datetime list — the value
`populateDateRange` obtains as `sorted[length - 1]`. -/
def dtMaxFold (x : DateTime) (l : List DateTime) : DateTime :=
  l.foldl (fun a b => if DateTime.Lt a b then b else a) x

/-- The parseable dates of the dataset, as collected by
`populateDateRange` (`instanceof Date` filter; `null` cells dropped). -/
def loadDates (data : List Record) : List DateTime :=
  data.filterMap (fun r => r.date)

/-- The numeric ages of the dataset, as collected by
`populateAgeRange` (`null`/`NaN` cells dropped). -/
def loadAges (data : List Record) : List Rat :=
  data.filterMap (fun r => r.age)

/-- The start date `populateDateRange` writes into the start input
(as then re-read by `readFilterState`): the earliest parseable date's
calendar day at 00:00:00.000, unset when no date parses. -/
def dateStartInit (data : List Record) : Option DateTime :=
  match loadDates data with
  | [] => none
  | d :: ds => some (DateTime.startOfDay (dtMinFold d ds))

/-- The end date `populateDateRange` writes into the end input (as then
re-read by `readFilterState`): the latest parseable date's calendar day
at 23:59:59.999, unset when no date parses. -/
def dateEndInit (data : List Record) : Option DateTime :=
  match loadDates data with
  | [] => none
  | d :: ds => some (DateTime.endOfDay (dtMaxFold d ds))

/-- The minimum slider value `populateAgeRange` sets:
`Math.floor(Math.min(...ages))`, or the untouched default 0 when no
age is numeric. -/
def ageMinInit (data : List Record) : Int :=
  match loadAges data with
  | [] => 0
  | a :: as => ⌊List.foldl min a as⌋

/-- The maximum slider value `populateAgeRange` sets:
`Math.ceil(Math.max(...ages))`, or the untouched default 100 when no
age is numeric. -/
def ageMaxInit (data : List Record) : Int :=
  match loadAges data with
  | [] => 100
  | a :: as => ⌈List.foldl max a as⌉

/-- The filter criteria in effect right after a load: what
`populateFilters` writes into the date inputs and age sliders, as then
read back by `readFilterState` — empty accepted sets, the full
original date range and the full original age range. -/
def initialCriteria (data : List Record) : Criteria :=
  { companies := [], purposes := [], months := [], sexes := [],
    labels := [], findings := [],
    dateStart := dateStartInit data, dateEnd := dateEndInit data,
    ageMin := ageMinInit data, ageMax := ageMaxInit data }

end Filters

/-- Update of a JS object used as a string-keyed map: bump the value at
`k` with `f` when present, otherwise append `(k, f i)`. The list keeps
the properties in creation (insertion) order; what `Object.entries`
enumerates is `jsEntries` of this list, which fronts integer-like keys
in ascending numeric order as ECMA-262 prescribes. -/
def groupUpd {β : Type} (k : String) (f : β → β) (i : β) :
    List (String × β) → List (String × β)
  | [] => [(k, f i)]
  | (q, v) :: t => if q = k then (q, f v) :: t else (q, v) :: groupUpd k f i t

/-- Property lookup in a JS object modelled as an association list. -/
def lookupS {β : Type} (k : String) : List (String × β) → Option β
  | [] => none
  | (q, v) :: t => if q = k then some v else lookupS k t

/-- One iteration of the grouping loops of `DataProcessor`: rows whose
key is absent (falsy date, falsy finding, …) are skipped, others bump
the group at their key. -/
def groupStep {β : Type} (key : Record → Option String) (g : Record → β → β) (i : β)
    (acc : List (String × β)) (r : Record) : List (String × β) :=
  match key r with
  | none => acc
  | some k => groupUpd k (g r) i acc

/-- The whole `data.forEach(...)` grouping loop over an initially empty
object. -/
def groupFold {β : Type} (key : Record → Option String) (g : Record → β → β) (i : β)
    (data : List Record) : List (String × β) :=
  data.foldl (groupStep key g i) []

/-- The distinct keys of a record sequence in order of each key's first
appearance — the creation (insertion) order of the grouping object's
properties. `Object.entries` enumerates these keys in `jsKeyOrder`:
integer-like ones first in ascending numeric order, then the rest in
this first-appearance order. -/
def firstKeys (key : Record → Option String) : List Record → List String → List String
  | [], _ => []
  | r :: rs, seen =>
    match key r with
    | none => firstKeys key rs seen
    | some k =>
      if k ∈ seen then firstKeys key rs seen
      else k :: firstKeys key rs (k :: seen)

/-- Stable insert: place `x` before the first `y` with `le x y`. -/
def insB {α : Type} (le : α → α → Bool) (x : α) : List α → List α
  | [] => [x]
  | y :: ys => if le x y then x :: y :: ys else y :: insB le x ys

/-- Stable insertion sort, modelling the (stable)
`Array.prototype.sort`: an element is placed before exactly those later
elements that must come strictly after it. -/
def sortB {α : Type} (le : α → α → Bool) : List α → List α
  | [] => []
  | x :: xs => insB le x (sortB le xs)

/-- Decimal value of a digit list. -/
def charsToNat (cs : List Char) : Nat :=
  cs.foldl (fun n c => n * 10 + (c.toNat - 48)) 0

/-- ECMA-262 array-index test on a property key: the canonical decimal
numeral of an integer `n` with `0 ≤ n < 2^32 - 1` (all digits, no
leading zero except `"0"` itself) yields `some n`, every other key
`none`. -/
def arrayIndex (s : String) : Option Nat :=
  match s.data with
  | [] => none
  | c :: cs =>
    if !(c :: cs).all Char.isDigit then none
    else if c = '0' ∧ cs ≠ [] then none
    else if charsToNat (c :: cs) < 4294967295 then some (charsToNat (c :: cs)) else none

/-- Ascending comparison of two keys by their array-index values (only
ever used between keys that are array indices). -/
def jsKeyOrderLeB (a b : String) : Bool :=
  decide ((arrayIndex a).getD 0 ≤ (arrayIndex b).getD 0)

/-- ECMA-262 `[[OwnPropertyKeys]]` order of a key list given in
creation order: the array-index keys first, in ascending numeric
order, then the remaining keys in creation order. -/
def jsKeyOrder (ks : List String) : List String :=
  sortB jsKeyOrderLeB (ks.filter (fun k => (arrayIndex k).isSome)) ++
    ks.filter (fun k => !(arrayIndex k).isSome)

/-- `Object.entries` of an object whose properties were created in the
order of the association list: entries with array-index keys first, in
ascending numeric order, then the remaining entries in creation
order. -/
def jsEntries {β : Type} (l : List (String × β)) : List (String × β) :=
  sortB (fun a b => jsKeyOrderLeB a.1 b.1)
      (l.filter (fun p => (arrayIndex p.1).isSome)) ++
    l.filter (fun p => !(arrayIndex p.1).isSome)

namespace DataProcessor

/-- Zero-pad a month or day number to two digits (`padStart(2, '0')`). -/
def pad2 (n : Int) : String :=
  if n < 10 then "0" ++ toString n else toString n

/-- `DataProcessor.formatDateKey`: the `YYYY-MM-DD` day key of a date. -/
def formatDateKey (d : DateTime) : String :=
  toString d.year ++ "-" ++ pad2 d.month ++ "-" ++ pad2 d.day

/-- `DataProcessor.formatMonthKey`: the `YYYY-MM` month key of a date. -/
def formatMonthKey (d : DateTime) : String :=
  toString d.year ++ "-" ++ pad2 d.month

/-- Day grouping key of a row: absent when the date cell is `null`
(`if (!date) return`). -/
def keyOfDate (r : Record) : Option String := r.date.map formatDateKey

/-- Month grouping key of a row: absent when the date cell is `null`. -/
def keyOfMonth (r : Record) : Option String := r.date.map formatMonthKey

/-- JS `Set.prototype.add` on a set modelled as its insertion-ordered
element list. -/
def insStr (s : List String) (e : String) : List String :=
  if e ∈ s then s else s ++ [e]

/-- Per-row update of a per-group patient set: add the employee number
when truthy (`if (row[COLUMNS.EMPLOYEE]) set.add(...)`). -/
def empStep (r : Record) (s : List String) : List String :=
  if r.employee = "" then s else insStr s r.employee

/-- Lexicographic comparison of character lists. -/
def charListLe : List Char → List Char → Bool
  | [], _ => true
  | _ :: _, [] => false
  | a :: as, b :: bs => if a = b then charListLe as bs else decide (a < b)

/-- String comparison used to model chronological sorting of generated
`YYYY-MM-DD` / `YYYY-MM` keys (zero-padded, so lexicographic order is
chronological order). -/
def keyLeB (a b : String × Nat) : Bool := charListLe a.1.data b.1.data

/-- `DataProcessor.getPatientsPerDay`: distinct truthy employee numbers
per calendar day (`Object.entries` of the grouping object, mapped to
counts), days without a parseable date dropped, sorted chronologically
ascending. -/
def getPatientsPerDay (data : List Record) : List (String × Nat) :=
  sortB keyLeB ((jsEntries (groupFold keyOfDate empStep [] data)).map
    (fun p => (p.1, p.2.length)))

/-- `DataProcessor.getPatientsPerMonth`: distinct truthy employee
numbers per calendar month, sorted chronologically ascending. -/
def getPatientsPerMonth (data : List Record) : List (String × Nat) :=
  sortB keyLeB ((jsEntries (groupFold keyOfMonth empStep [] data)).map
    (fun p => (p.1, p.2.length)))

/-- Finding grouping key of a row: the string-coerced finding when
truthy, absent otherwise (`if (finding) counts[finding]++`). -/
def keyOfFinding (r : Record) : Option String :=
  if r.findings.truthy then some r.findings.toStr else none

/-- Descending-by-count comparison of `(value, count)` entries; placing
an earlier entry before all later entries of no larger count makes the
insertion sort stable-descending, as the source's
`sort((a, b) => b.count - a.count)` is. -/
def countGeB (a b : String × Nat) : Bool := decide (b.2 ≤ a.2)

/-- The `counts` object of `getTopFindings`: one entry per truthy
finding value, in property-creation (first-appearance) order, holding
its record-level occurrence count. -/
def topFindingCounts (data : List Record) : List (String × Nat) :=
  groupFold keyOfFinding (fun _ n => n + 1) 0 data

/-- `DataProcessor.getTopFindings`: `Object.entries` of the counts
object (array-index keys fronted), sorted descending by count
(stable), first `topN` kept. -/
def getTopFindings (data : List Record) (topN : Nat) : List (String × Nat) :=
  (sortB countGeB (jsEntries (topFindingCounts data))).take topN

/-- Sex grouping key of a row: `row[COLUMNS.SEX] || 'Unknown'`, then
used as a string property key. -/
def sexKey (r : Record) : String :=
  if r.sex.truthy then r.sex.toStr else "Unknown"

/-- `DataProcessor.getSexDistribution`: distinct truthy employee numbers
per sex group (with the `Unknown` bucket); the entries are emitted in
`Object.entries` enumeration order of the grouping object, with no
sort. -/
def getSexDistribution (data : List Record) : List (String × Nat) :=
  (jsEntries (groupFold (fun r => some (sexKey r)) empStep [] data)).map
    (fun p => (p.1, p.2.length))

/-- The fixed bracket order `AGE_BRACKETS` of `config.js`. -/
def AGE_BRACKETS : List String :=
  ["<18", "18-24", "25-34", "35-44", "45-54", "55-64", "65-74", "75-84", "85+", "Unknown"]

/-- `DataProcessor.categorizeAgeBracket`: `Unknown` for a `null`/`NaN`
age, otherwise the bracket of the floored age. -/
def categorizeAgeBracket : Option Rat → String
  | none => "Unknown"
  | some a =>
    if ⌊a⌋ < 18 then "<18"
    else if ⌊a⌋ ≤ 24 then "18-24"
    else if ⌊a⌋ ≤ 34 then "25-34"
    else if ⌊a⌋ ≤ 44 then "35-44"
    else if ⌊a⌋ ≤ 54 then "45-54"
    else if ⌊a⌋ ≤ 64 then "55-64"
    else if ⌊a⌋ ≤ 74 then "65-74"
    else if ⌊a⌋ ≤ 84 then "75-84"
    else "85+"

/-- The subsequence of rows kept by the `seen` dedup loop shared by
`getAgeBracketDistribution` and `getAgeDistribution`: rows with a falsy
or already-seen employee number are skipped, so exactly the first row
of each distinct truthy employee number survives. -/
def firstRecordsAux : List Record → List String → List Record
  | [], _ => []
  | r :: rs, seen =>
    if r.employee = "" then firstRecordsAux rs seen
    else if r.employee ∈ seen then firstRecordsAux rs seen
    else r :: firstRecordsAux rs (r.employee :: seen)

/-- First record per distinct truthy employee number, in input order. -/
def firstRecords (data : List Record) : List Record := firstRecordsAux data []

/-- The bracket-counting loop of `getAgeBracketDistribution`, carrying
the `seen` employee set and the `grouped` counts object (a total map,
absent brackets at 0). -/
def ageBracketFold : List Record → List String → (String → Nat) → (String → Nat)
  | [], _, g => g
  | r :: rs, seen, g =>
    if r.employee = "" then ageBracketFold rs seen g
    else if r.employee ∈ seen then ageBracketFold rs seen g
    else ageBracketFold rs (r.employee :: seen)
      (fun b => if b = categorizeAgeBracket r.age then g b + 1 else g b)

/-- `DataProcessor.getAgeBracketDistribution`: one count per distinct
truthy employee number (its first record's age), presented in the fixed
`AGE_BRACKETS` order restricted to brackets with a truthy
(i.e. nonzero) count. -/
def getAgeBracketDistribution (data : List Record) : List (String × Nat) :=
  (AGE_BRACKETS.filter
    (fun b => decide (ageBracketFold data [] (fun _ => 0) b ≠ 0))).map
    (fun b => (b, ageBracketFold data [] (fun _ => 0) b))

/-- `DataProcessor.getAgeDistribution`: the numeric ages of the first
records of distinct truthy employee numbers. -/
def getAgeDistribution (data : List Record) : List Rat :=
  (firstRecords data).filterMap (fun r => r.age)

/-- Number of distinct truthy employee numbers of a row list — the
declarative counting the distribution claims are checked against. -/
def distinctPatients (l : List Record) : Nat :=
  ((l.filterMap (fun r => if r.employee = "" then none else some r.employee)).dedup).length

/-- Declarative per-bracket count: distinct truthy employee numbers
whose first record's age falls in the bracket. -/
def bracketCount (data : List Record) (b : String) : Nat :=
  (firstRecords data).countP (fun r => decide (categorizeAgeBracket r.age = b))

/-- The nine age brackets holding numeric ages. -/
def nonUnknownBrackets : List String :=
  ["<18", "18-24", "25-34", "35-44", "45-54", "55-64", "65-74", "75-84", "85+"]

end DataProcessor

/-- The rows of a dataset carrying a given grouping key — the rows a
grouping loop accumulates into that key's group. -/
def rowsWithKey (key : Record → Option String) (k : String) (data : List Record) : List Record :=
  data.filter (fun r => decide (key r = some k))

/-- The parser a file is routed to. -/
inductive ParserKind : Type
  | papaParse : ParserKind
  | sheetJS : ParserKind
deriving DecidableEq, Repr

namespace DataLoader

/-- Lowercase an ASCII letter, as `toLowerCase` does on filename
extensions. -/
def lowerChar (c : Char) : Char :=
  if c.toNat ≥ 65 ∧ c.toNat ≤ 90 then Char.ofNat (c.toNat + 32) else c

/-- JS `String.prototype.split('.')` on the character list of a
filename: the segments between dots (an empty trailing segment when the
name ends in a dot, the whole name when it holds no dot). -/
def splitDot : List Char → List (List Char)
  | [] => [[]]
  | c :: rest =>
    match splitDot rest with
    | [] => [[]]
    | g :: gs => if c = '.' then [] :: g :: gs else (c :: g) :: gs

/-- The lowercased filename extension, `file.name.split('.').pop().toLowerCase()`. -/
def getExtension (name : String) : String :=
  String.mk (((splitDot name.data).getLastD []).map lowerChar)

/-- The rejection message of `DataLoader.parseFile`. -/
def unsupportedFormatMsg : String :=
  "Unsupported file format. Please use CSV or Excel files."

/-- The format dispatch of `DataLoader.parseFile`: `csv` goes to the
CSV parser, `xlsx`/`xls` to the spreadsheet parser, anything else is
rejected before any parser is chosen. -/
def parseFile (name : String) : Except String ParserKind :=
  if getExtension name = "csv" then .ok .papaParse
  else if getExtension name ∈ ["xlsx", "xls"] then .ok .sheetJS
  else .error unsupportedFormatMsg

end DataLoader

/-- The dataset slots and file-status line of the orchestrator `App`. -/
structure AppState where
  fullData : List Record := []
  filteredData : List Record := []
  fileStatus : String := ""
deriving DecidableEq, Repr

namespace App

/-- One run of the `App.setupFileUpload` change handler on state `st`:
`parseFile` either rejects (caught: only the status line changes) or
names a parser, whose outcome `runParser` gives; only a successful
parse replaces `fullData`/`filteredData`. -/
def fileUploadStep (st : AppState) (name : String)
    (runParser : ParserKind → Except String (List Record)) : AppState :=
  match DataLoader.parseFile name with
  | .error msg => { st with fileStatus := "Error: " ++ msg }
  | .ok pk =>
    match runParser pk with
    | .error msg => { st with fileStatus := "Error: " ++ msg }
    | .ok data => { fullData := data, filteredData := data, fileStatus := "Loaded" }

end App

/-- The three-record scenario of the specification: two visits of
employee `E1` on 2024-01-05 and one visit of employee `E2` on
2024-02-10. -/
def exScenario : List Record :=
  [ { date := some ⟨2024, 1, 5, 0⟩, employee := "E1", age := some 30,
      company := .vStr "A", findings := .vStr "F1" },
    { date := some ⟨2024, 1, 5, 0⟩, employee := "E1", age := some 30,
      company := .vStr "A", findings := .vStr "F2" },
    { date := some ⟨2024, 2, 10, 0⟩, employee := "E2", age := some 70,
      company := .vStr "B", findings := .vStr "F1" } ]

/-- A dataset on which the sex distribution is visibly unsorted: one
male patient appears before two female patients, so the `M` group (count
1) is emitted before the `F` group (count 2). -/
def exSexData : List Record :=
  [ { employee := "P1", sex := .vStr "M" },
    { employee := "P2", sex := .vStr "F" },
    { employee := "P3", sex := .vStr "F" } ]

/-- A one-record dataset whose only visit has a valid date but an empty
employee number. -/
def exEmptyEmp : List Record :=
  [ { date := some ⟨2024, 1, 5, 0⟩ } ]

/-- A dataset whose two findings tie at one record each, the first a
plain text `A`, the second the number 7 (reachable through the parsers'
dynamic typing): the counts object's key `"7"` is an array index, so
`Object.entries` fronts it ahead of the earlier-appearing `A`. -/
def exNumFinding : List Record :=
  [ { findings := .vStr "A" },
    { findings := .vNum 7 } ]

/- ======================================================================
Theorems.
====================================================================== -/

namespace DateTime

theorem not_lt_iff_le {a b : DateTime} : ¬ Lt a b ↔ Le b a := by
  unfold Lt Le
  constructor
  · intro h; omega
  · intro h; omega

theorem le_trans {a b c : DateTime} (h1 : Le a b) (h2 : Le b c) : Le a c := by
  unfold Le at *; omega

theorem le_refl (a : DateTime) : Le a a := by
  unfold Le; omega

theorem startOfDay_le {m d : DateTime} (h : Le m d) (hv : 0 ≤ d.ms) :
    Le (startOfDay m) d := by
  unfold Le startOfDay at *; simp only at *; omega

theorem le_endOfDay {d M : DateTime} (h : Le d M) (hv : d.ms ≤ 86399999) :
    Le d (endOfDay M) := by
  unfold Le endOfDay at *; simp only at *; omega

end DateTime

namespace Filters

theorem catPass_iff (sel : List String) (v : Value) :
    catPass sel v = true ↔ (sel ≠ [] → v.toStr ∈ sel) := by
  cases sel with
  | nil => simp [catPass]
  | cons a l => simp [catPass]

theorem datePass_iff (c : Criteria) (r : Record) :
    datePass c r = true ↔
      (∀ s e, c.dateStart = some s → c.dateEnd = some e →
        ∀ d, r.date = some d → (DateTime.Le s d ∧ DateTime.Le d e)) := by
  unfold datePass
  cases hs : c.dateStart with
  | none => simp [hs]
  | some s =>
    cases he : c.dateEnd with
    | none => simp [hs, he]
    | some e =>
      cases hd : r.date with
      | none => simp [hs, he, hd]
      | some d =>
        simp only [hs, he, hd]
        constructor
        · intro h s' e' hs' he' d' hd'
          cases hs'; cases he'; cases hd'
          by_cases hlt : DateTime.Lt d s ∨ DateTime.Lt e d
          · simp [hlt] at h
          · push_neg at hlt
            exact ⟨DateTime.not_lt_iff_le.mp hlt.1, DateTime.not_lt_iff_le.mp hlt.2⟩
        · intro h
          have h2 := h s e rfl rfl d rfl
          have h3 : ¬ (DateTime.Lt d s ∨ DateTime.Lt e d) := by
            push_neg
            exact ⟨DateTime.not_lt_iff_le.mpr h2.1, DateTime.not_lt_iff_le.mpr h2.2⟩
          simp [h3]

theorem agePass_iff (c : Criteria) (r : Record) :
    agePass c r = true ↔
      (∀ a, r.age = some a → ((c.ageMin : Rat) ≤ a ∧ a ≤ (c.ageMax : Rat))) := by
  unfold agePass
  cases ha : r.age with
  | none => simp [ha]
  | some a =>
    simp only
    constructor
    · intro h a' ha'
      cases ha'
      by_cases hlt : a < (c.ageMin : Rat) ∨ (c.ageMax : Rat) < a
      · simp [hlt] at h
      · push_neg at hlt
        exact ⟨hlt.1, hlt.2⟩
    · intro h
      have h2 := h a rfl
      have h3 : ¬ (a < (c.ageMin : Rat) ∨ (c.ageMax : Rat) < a) := by
        push_neg
        exact ⟨h2.1, h2.2⟩
      simp [h3]

theorem rowPass_iff (c : Criteria) (r : Record) :
    rowPass c r = true ↔
      ((c.companies ≠ [] → r.company.toStr ∈ c.companies) ∧
       (c.purposes ≠ [] → r.purpose.toStr ∈ c.purposes) ∧
       (c.months ≠ [] → r.month.toStr ∈ c.months) ∧
       (c.sexes ≠ [] → r.sex.toStr ∈ c.sexes) ∧
       (c.labels ≠ [] → r.label.toStr ∈ c.labels) ∧
       (c.findings ≠ [] → r.findings.toStr ∈ c.findings) ∧
       (∀ s e, c.dateStart = some s → c.dateEnd = some e →
         ∀ d, r.date = some d → (DateTime.Le s d ∧ DateTime.Le d e)) ∧
       (∀ a, r.age = some a → ((c.ageMin : Rat) ≤ a ∧ a ≤ (c.ageMax : Rat)))) := by
  unfold rowPass
  rw [Bool.and_eq_true, Bool.and_eq_true, Bool.and_eq_true, Bool.and_eq_true,
    Bool.and_eq_true, Bool.and_eq_true, Bool.and_eq_true]
  rw [catPass_iff, catPass_iff, catPass_iff, catPass_iff, catPass_iff, catPass_iff,
    datePass_iff, agePass_iff]
  all_goals tauto

end Filters

/-- C1. Membership in the output of `applyFilters` is equivalent to
membership in the input together with, for each of the six category
fields with a non-empty accepted set, membership of the string-coerced
field value in that set, and the date and age range conditions; an
empty accepted set constrains nothing. -/
theorem C1_applyFilters_membership (c : Criteria) (data : List Record) (r : Record) :
    r ∈ Filters.applyFilters c data ↔
      (r ∈ data ∧
       (c.companies ≠ [] → r.company.toStr ∈ c.companies) ∧
       (c.purposes ≠ [] → r.purpose.toStr ∈ c.purposes) ∧
       (c.months ≠ [] → r.month.toStr ∈ c.months) ∧
       (c.sexes ≠ [] → r.sex.toStr ∈ c.sexes) ∧
       (c.labels ≠ [] → r.label.toStr ∈ c.labels) ∧
       (c.findings ≠ [] → r.findings.toStr ∈ c.findings) ∧
       (∀ s e, c.dateStart = some s → c.dateEnd = some e →
         ∀ d, r.date = some d → (DateTime.Le s d ∧ DateTime.Le d e)) ∧
       (∀ a, r.age = some a → ((c.ageMin : Rat) ≤ a ∧ a ≤ (c.ageMax : Rat)))) := by
  unfold Filters.applyFilters
  rw [List.mem_filter, Filters.rowPass_iff]

namespace DateTime

theorem le_of_lt {a b : DateTime} (h : Lt a b) : Le a b := by
  unfold Lt Le at *; omega

end DateTime

namespace Filters

theorem dt_ite_le_left (b x : DateTime) :
    DateTime.Le (if DateTime.Lt b x then b else x) x := by
  split
  · next h => exact DateTime.le_of_lt h
  · exact DateTime.le_refl x

theorem dt_ite_le_right (b x : DateTime) :
    DateTime.Le (if DateTime.Lt b x then b else x) b := by
  split
  · exact DateTime.le_refl b
  · next h => exact DateTime.not_lt_iff_le.mp h

theorem dt_ite_ge_left (b x : DateTime) :
    DateTime.Le x (if DateTime.Lt x b then b else x) := by
  split
  · next h => exact DateTime.le_of_lt h
  · exact DateTime.le_refl x

theorem dt_ite_ge_right (b x : DateTime) :
    DateTime.Le b (if DateTime.Lt x b then b else x) := by
  split
  · exact DateTime.le_refl b
  · next h => exact DateTime.not_lt_iff_le.mp h

theorem dtMinFold_le : ∀ (l : List DateTime) (x y : DateTime),
    (y = x ∨ y ∈ l) → DateTime.Le (dtMinFold x l) y := by
  intro l
  induction l with
  | nil =>
    intro x y h
    rcases h with h | h
    · subst h; exact DateTime.le_refl y
    · cases h
  | cons b t ih =>
    intro x y h
    have step : dtMinFold x (b :: t) = dtMinFold (if DateTime.Lt b x then b else x) t := rfl
    rw [step]
    rcases h with h | h
    · subst h
      exact DateTime.le_trans (ih _ _ (Or.inl rfl)) (dt_ite_le_left b y)
    · rcases List.mem_cons.mp h with h | h
      · subst h
        exact DateTime.le_trans (ih _ _ (Or.inl rfl)) (dt_ite_le_right y x)
      · exact ih _ _ (Or.inr h)

theorem dtMaxFold_ge : ∀ (l : List DateTime) (x y : DateTime),
    (y = x ∨ y ∈ l) → DateTime.Le y (dtMaxFold x l) := by
  intro l
  induction l with
  | nil =>
    intro x y h
    rcases h with h | h
    · subst h; exact DateTime.le_refl y
    · cases h
  | cons b t ih =>
    intro x y h
    have step : dtMaxFold x (b :: t) = dtMaxFold (if DateTime.Lt x b then b else x) t := rfl
    rw [step]
    rcases h with h | h
    · subst h
      exact DateTime.le_trans (dt_ite_ge_left b y) (ih _ _ (Or.inl rfl))
    · rcases List.mem_cons.mp h with h | h
      · subst h
        exact DateTime.le_trans (dt_ite_ge_right y x) (ih _ _ (Or.inl rfl))
      · exact ih _ _ (Or.inr h)

theorem ratFoldMin_le : ∀ (l : List Rat) (x y : Rat),
    (y = x ∨ y ∈ l) → List.foldl min x l ≤ y := by
  intro l
  induction l with
  | nil =>
    intro x y h
    rcases h with h | h
    · subst h; exact le_refl y
    · cases h
  | cons b t ih =>
    intro x y h
    have step : List.foldl min x (b :: t) = List.foldl min (min x b) t := rfl
    rw [step]
    rcases h with h | h
    · subst h; exact le_trans (ih _ _ (Or.inl rfl)) (min_le_left y b)
    · rcases List.mem_cons.mp h with h | h
      · subst h; exact le_trans (ih _ _ (Or.inl rfl)) (min_le_right x y)
      · exact ih _ _ (Or.inr h)

theorem ratFoldMax_ge : ∀ (l : List Rat) (x y : Rat),
    (y = x ∨ y ∈ l) → y ≤ List.foldl max x l := by
  intro l
  induction l with
  | nil =>
    intro x y h
    rcases h with h | h
    · subst h; exact le_refl y
    · cases h
  | cons b t ih =>
    intro x y h
    have step : List.foldl max x (b :: t) = List.foldl max (max x b) t := rfl
    rw [step]
    rcases h with h | h
    · subst h; exact le_trans (le_max_left y b) (ih _ _ (Or.inl rfl))
    · rcases List.mem_cons.mp h with h | h
      · subst h; exact le_trans (le_max_right x y) (ih _ _ (Or.inl rfl))
      · exact ih _ _ (Or.inr h)

end Filters

/-- C2. Applying the filters with all six accepted-value sets empty and
the date and age ranges equal to the full original ranges computed at
load time (earliest day at 00:00:00.000 through latest day at
23:59:59.999, ⌊minimum age⌋ through ⌈maximum age⌉) returns the record
set unchanged in content and order, for records carrying real
millisecond-of-day values. -/
theorem C2_applyFilters_initial_identity (data : List Record)
    (hv : ∀ d ∈ Filters.loadDates data, DateTime.ValidMs d) :
    Filters.applyFilters (Filters.initialCriteria data) data = data := by
  unfold Filters.applyFilters
  rw [List.filter_eq_self]
  intro r hr
  rw [Filters.rowPass_iff]
  refine ⟨fun h => absurd rfl h, fun h => absurd rfl h, fun h => absurd rfl h,
    fun h => absurd rfl h, fun h => absurd rfl h, fun h => absurd rfl h, ?_, ?_⟩
  · intro s e hs he d hd
    have hdmem : d ∈ Filters.loadDates data := by
      unfold Filters.loadDates
      exact List.mem_filterMap.mpr ⟨r, hr, hd⟩
    have hvd : DateTime.ValidMs d := hv d hdmem
    cases hl : Filters.loadDates data with
    | nil => rw [hl] at hdmem; cases hdmem
    | cons d0 ds =>
      have hs2 : Filters.dateStartInit data = some (DateTime.startOfDay (Filters.dtMinFold d0 ds)) := by
        unfold Filters.dateStartInit; rw [hl]
      have he2 : Filters.dateEndInit data = some (DateTime.endOfDay (Filters.dtMaxFold d0 ds)) := by
        unfold Filters.dateEndInit; rw [hl]
      have hs3 : s = DateTime.startOfDay (Filters.dtMinFold d0 ds) := by
        have := hs.symm.trans hs2
        exact Option.some_injective _ this.symm |>.symm
      have he3 : e = DateTime.endOfDay (Filters.dtMaxFold d0 ds) := by
        have := he.symm.trans he2
        exact Option.some_injective _ this.symm |>.symm
      rw [hl] at hdmem
      have hdm : d = d0 ∨ d ∈ ds := List.mem_cons.mp hdmem
      constructor
      · rw [hs3]
        exact DateTime.startOfDay_le (Filters.dtMinFold_le ds d0 d hdm) hvd.1
      · rw [he3]
        exact DateTime.le_endOfDay (Filters.dtMaxFold_ge ds d0 d hdm) hvd.2
  · intro a ha
    have hamem : a ∈ Filters.loadAges data := by
      unfold Filters.loadAges
      exact List.mem_filterMap.mpr ⟨r, hr, ha⟩
    cases hl : Filters.loadAges data with
    | nil => rw [hl] at hamem; cases hamem
    | cons a0 as =>
      rw [hl] at hamem
      have ham : a = a0 ∨ a ∈ as := List.mem_cons.mp hamem
      have hmin : Filters.ageMinInit data = ⌊List.foldl min a0 as⌋ := by
        unfold Filters.ageMinInit; rw [hl]
      have hmax : Filters.ageMaxInit data = ⌈List.foldl max a0 as⌉ := by
        unfold Filters.ageMaxInit; rw [hl]
      have h1 : (Filters.initialCriteria data).ageMin = Filters.ageMinInit data := rfl
      have h2 : (Filters.initialCriteria data).ageMax = Filters.ageMaxInit data := rfl
      rw [h1, h2, hmin, hmax]
      constructor
      · exact le_trans (Int.floor_le _) (Filters.ratFoldMin_le as a0 a ham)
      · exact le_trans (Filters.ratFoldMax_ge as a0 a ham) (Int.le_ceil _)

/-- Concrete witness for the identity theorem: on the specification's
three-record scenario the initial criteria keep every record. -/
theorem C2_applyFilters_initial_identity_witness :
    Filters.applyFilters (Filters.initialCriteria exScenario) exScenario = exScenario :=
  C2_applyFilters_initial_identity exScenario (by decide)

/-- C3. With both bounds set (a start day at 00:00:00.000 and an end
day at 23:59:59.999, as `readFilterState` always builds them), a record
with a parseable date passes the date check exactly when the date lies
in the inclusive interval between the two bounds; a record whose date
failed to parse always passes the date check; and for a record passing
every other check, exclusion from the filtered output happens exactly
when the date check fails. -/
theorem C3_dateFilter_exclusion (c : Criteria) (r : Record)
    (sy sm sd ey em ed : Int)
    (hs : c.dateStart = some ⟨sy, sm, sd, 0⟩)
    (he : c.dateEnd = some ⟨ey, em, ed, 86399999⟩) :
    (∀ d, r.date = some d →
      (Filters.datePass c r = true ↔
        (DateTime.Le ⟨sy, sm, sd, 0⟩ d ∧ DateTime.Le d ⟨ey, em, ed, 86399999⟩))) ∧
    (r.date = none → Filters.datePass c r = true) ∧
    (∀ data, r ∈ data →
      Filters.catPass c.companies r.company = true →
      Filters.catPass c.purposes r.purpose = true →
      Filters.catPass c.months r.month = true →
      Filters.catPass c.sexes r.sex = true →
      Filters.catPass c.labels r.label = true →
      Filters.catPass c.findings r.findings = true →
      Filters.agePass c r = true →
      (r ∉ Filters.applyFilters c data ↔ Filters.datePass c r = false)) := by
  refine ⟨?_, ?_, ?_⟩
  · intro d hd
    unfold Filters.datePass
    rw [hs, he, hd]
    simp only
    constructor
    · intro h
      by_cases hlt : DateTime.Lt d ⟨sy, sm, sd, 0⟩ ∨ DateTime.Lt ⟨ey, em, ed, 86399999⟩ d
      · simp [hlt] at h
      · push_neg at hlt
        exact ⟨DateTime.not_lt_iff_le.mp hlt.1, DateTime.not_lt_iff_le.mp hlt.2⟩
    · intro h
      have h3 : ¬ (DateTime.Lt d ⟨sy, sm, sd, 0⟩ ∨ DateTime.Lt ⟨ey, em, ed, 86399999⟩ d) := by
        push_neg
        exact ⟨DateTime.not_lt_iff_le.mpr h.1, DateTime.not_lt_iff_le.mpr h.2⟩
      simp [h3]
  · intro hd
    unfold Filters.datePass
    rw [hs, he, hd]
  · intro data hmem h1 h2 h3 h4 h5 h6 h8
    unfold Filters.applyFilters
    rw [List.mem_filter]
    unfold Filters.rowPass
    rw [h1, h2, h3, h4, h5, h6, h8]
    simp only [Bool.true_and, Bool.and_true]
    constructor
    · intro h
      cases hdp : Filters.datePass c r with
      | false => rfl
      | true => exact absurd ⟨hmem, hdp⟩ h
    · intro h hcontra
      rw [h] at hcontra
      exact Bool.false_ne_true hcontra.2

/-- Concrete witness for the date-filter theorem: a record dated
2024-03-15 noon passes a January-through-February 2024 range check in
no way, and is excluded, while its unparseable-date sibling passes. -/
theorem C3_dateFilter_exclusion_witness :
    (Filters.datePass
        { dateStart := some ⟨2024, 1, 1, 0⟩, dateEnd := some ⟨2024, 2, 29, 86399999⟩ }
        { date := some ⟨2024, 3, 15, 43200000⟩ } = true ↔
      (DateTime.Le ⟨2024, 1, 1, 0⟩ ⟨2024, 3, 15, 43200000⟩ ∧
       DateTime.Le ⟨2024, 3, 15, 43200000⟩ ⟨2024, 2, 29, 86399999⟩)) ∧
    Filters.datePass
        { dateStart := some ⟨2024, 1, 1, 0⟩, dateEnd := some ⟨2024, 2, 29, 86399999⟩ }
        { date := none } = true := by
  have h := C3_dateFilter_exclusion
    { dateStart := some ⟨2024, 1, 1, 0⟩, dateEnd := some ⟨2024, 2, 29, 86399999⟩ }
    { date := some ⟨2024, 3, 15, 43200000⟩ }
    2024 1 1 2024 2 29 rfl rfl
  have h2 := C3_dateFilter_exclusion
    { dateStart := some ⟨2024, 1, 1, 0⟩, dateEnd := some ⟨2024, 2, 29, 86399999⟩ }
    ({ date := none } : Record)
    2024 1 1 2024 2 29 rfl rfl
  exact ⟨h.1 ⟨2024, 3, 15, 43200000⟩ rfl, h2.2.1 rfl⟩

/-- C7. On the specification's three-record scenario (two visits of
employee `E1` on 2024-01-05, one visit of employee `E2` on 2024-02-10),
`getPatientsPerDay` returns exactly one patient for each of the two
days, in chronological order. -/
theorem C7_getPatientsPerDay_scenario :
    DataProcessor.getPatientsPerDay exScenario =
      [("2024-01-05", 1), ("2024-02-10", 1)] := by
  decide

/-- C9. A filename whose lowercased extension is none of `csv`, `xlsx`,
`xls` is rejected by `parseFile` with the explicit unsupported-format
error; the upload handler then leaves the loaded dataset untouched, and
its outcome does not depend on any parser at all. -/
theorem C9_unsupported_extension_rejected (name : String)
    (h : DataLoader.getExtension name ∉ (["csv", "xlsx", "xls"] : List String)) :
    DataLoader.parseFile name = Except.error DataLoader.unsupportedFormatMsg ∧
    (∀ (st : AppState) (runParser : ParserKind → Except String (List Record)),
      (App.fileUploadStep st name runParser).fullData = st.fullData ∧
      (App.fileUploadStep st name runParser).filteredData = st.filteredData) ∧
    (∀ (st : AppState) (p q : ParserKind → Except String (List Record)),
      App.fileUploadStep st name p = App.fileUploadStep st name q) := by
  have hcsv : ¬ DataLoader.getExtension name = "csv" := by
    intro hc; exact h (by rw [hc]; simp)
  have hxl : ¬ DataLoader.getExtension name ∈ (["xlsx", "xls"] : List String) := by
    intro hc; apply h
    simp only [List.mem_cons, List.mem_singleton] at hc ⊢
    tauto
  have hpf : DataLoader.parseFile name = Except.error DataLoader.unsupportedFormatMsg := by
    unfold DataLoader.parseFile
    rw [if_neg hcsv, if_neg hxl]
  refine ⟨hpf, ?_, ?_⟩
  · intro st runParser
    unfold App.fileUploadStep
    rw [hpf]
    exact ⟨rfl, rfl⟩
  · intro st p q
    unfold App.fileUploadStep
    rw [hpf]

/-- Concrete witness for the rejection theorem at the filename
`report.pdf`. -/
theorem C9_unsupported_extension_rejected_witness :
    DataLoader.parseFile "report.pdf" = Except.error DataLoader.unsupportedFormatMsg ∧
    (App.fileUploadStep { fullData := exScenario, filteredData := exScenario }
        "report.pdf" (fun _ => Except.ok [])).fullData = exScenario := by
  have h := C9_unsupported_extension_rejected "report.pdf" (by decide)
  exact ⟨h.1, (h.2.1 { fullData := exScenario, filteredData := exScenario }
    (fun _ => Except.ok [])).1⟩

theorem lookupS_groupUpd_self {β : Type} (k : String) (f : β → β) (i : β) :
    ∀ (l : List (String × β)),
      lookupS k (groupUpd k f i l) = some (f ((lookupS k l).getD i)) := by
  intro l
  induction l with
  | nil => simp [groupUpd, lookupS]
  | cons p t ih =>
    obtain ⟨q, v⟩ := p
    by_cases hq : q = k
    · subst hq
      simp [groupUpd, lookupS]
    · simp [groupUpd, lookupS, hq, ih]

theorem lookupS_groupUpd_ne {β : Type} (k q : String) (f : β → β) (i : β) (h : q ≠ k) :
    ∀ (l : List (String × β)), lookupS k (groupUpd q f i l) = lookupS k l := by
  intro l
  induction l with
  | nil => simp [groupUpd, lookupS, h]
  | cons p t ih =>
    obtain ⟨q2, v⟩ := p
    by_cases hq2 : q2 = q
    · subst hq2
      simp [groupUpd, lookupS, h]
    · by_cases hk2 : q2 = k
      · subst hk2
        simp [groupUpd, lookupS, hq2]
      · simp [groupUpd, lookupS, hq2, hk2, ih]

theorem lookupS_foldl_some {β : Type} (key : Record → Option String) (g : Record → β → β) (i : β) :
    ∀ (data : List Record) (acc : List (String × β)) (k : String) (v : β),
      lookupS k acc = some v →
      lookupS k (data.foldl (groupStep key g i) acc) =
        some ((rowsWithKey key k data).foldl (fun b r => g r b) v) := by
  intro data
  induction data with
  | nil =>
    intro acc k v h
    simpa [rowsWithKey] using h
  | cons r rs ih =>
    intro acc k v h
    rw [List.foldl_cons]
    cases hk : key r with
    | none =>
      have hstep : groupStep key g i acc r = acc := by simp [groupStep, hk]
      have hrow : rowsWithKey key k (r :: rs) = rowsWithKey key k rs := by
        simp [rowsWithKey, List.filter_cons, hk]
      rw [hstep, hrow]
      exact ih acc k v h
    | some k0 =>
      have hstep : groupStep key g i acc r = groupUpd k0 (g r) i acc := by
        simp [groupStep, hk]
      rw [hstep]
      by_cases hkk : k0 = k
      · subst hkk
        have hl : lookupS k0 (groupUpd k0 (g r) i acc) = some (g r v) := by
          rw [lookupS_groupUpd_self, h]
          simp
        have hrow : rowsWithKey key k0 (r :: rs) = r :: rowsWithKey key k0 rs := by
          simp [rowsWithKey, List.filter_cons, hk]
        rw [hrow, List.foldl_cons]
        exact ih _ k0 (g r v) hl
      · have hl : lookupS k (groupUpd k0 (g r) i acc) = some v := by
          rw [lookupS_groupUpd_ne k k0 (g r) i hkk, h]
        have hrow : rowsWithKey key k (r :: rs) = rowsWithKey key k rs := by
          simp [rowsWithKey, List.filter_cons, hk, hkk]
        rw [hrow]
        exact ih _ k v hl

theorem lookupS_foldl_none {β : Type} (key : Record → Option String) (g : Record → β → β) (i : β) :
    ∀ (data : List Record) (acc : List (String × β)) (k : String),
      lookupS k acc = none →
      lookupS k (data.foldl (groupStep key g i) acc) =
        (if rowsWithKey key k data = [] then none
         else some ((rowsWithKey key k data).foldl (fun b r => g r b) i)) := by
  intro data
  induction data with
  | nil =>
    intro acc k h
    simpa [rowsWithKey] using h
  | cons r rs ih =>
    intro acc k h
    rw [List.foldl_cons]
    cases hk : key r with
    | none =>
      have hstep : groupStep key g i acc r = acc := by simp [groupStep, hk]
      have hrow : rowsWithKey key k (r :: rs) = rowsWithKey key k rs := by
        simp [rowsWithKey, List.filter_cons, hk]
      rw [hstep, hrow]
      exact ih acc k h
    | some k0 =>
      have hstep : groupStep key g i acc r = groupUpd k0 (g r) i acc := by
        simp [groupStep, hk]
      rw [hstep]
      by_cases hkk : k0 = k
      · subst hkk
        have hl : lookupS k0 (groupUpd k0 (g r) i acc) = some (g r i) := by
          rw [lookupS_groupUpd_self, h]
          simp
        have hrow : rowsWithKey key k0 (r :: rs) = r :: rowsWithKey key k0 rs := by
          simp [rowsWithKey, List.filter_cons, hk]
        rw [hrow]
        rw [lookupS_foldl_some key g i rs _ k0 (g r i) hl]
        simp [List.foldl_cons]
      · have hl : lookupS k (groupUpd k0 (g r) i acc) = none := by
          rw [lookupS_groupUpd_ne k k0 (g r) i hkk, h]
        have hrow : rowsWithKey key k (r :: rs) = rowsWithKey key k rs := by
          simp [rowsWithKey, List.filter_cons, hk, hkk]
        rw [hrow]
        exact ih _ k hl

theorem map_fst_groupUpd_mem {β : Type} (k : String) (f : β → β) (i : β) :
    ∀ (l : List (String × β)), k ∈ l.map Prod.fst →
      (groupUpd k f i l).map Prod.fst = l.map Prod.fst := by
  intro l
  induction l with
  | nil => intro h; cases h
  | cons p t ih =>
    obtain ⟨q, v⟩ := p
    intro h
    by_cases hq : q = k
    · subst hq
      simp [groupUpd]
    · have hmem : k ∈ t.map Prod.fst := by
        rcases List.mem_cons.mp h with h2 | h2
        · exact absurd h2.symm hq
        · exact h2
      simp [groupUpd, hq, ih hmem]

theorem map_fst_groupUpd_not_mem {β : Type} (k : String) (f : β → β) (i : β) :
    ∀ (l : List (String × β)), k ∉ l.map Prod.fst →
      (groupUpd k f i l).map Prod.fst = l.map Prod.fst ++ [k] := by
  intro l
  induction l with
  | nil => intro h; simp [groupUpd]
  | cons p t ih =>
    obtain ⟨q, v⟩ := p
    intro h
    have hq : q ≠ k := by
      intro hc
      exact h (by simp [hc])
    have hmem : k ∉ t.map Prod.fst := by
      intro hc
      exact h (by simp [hc])
    simp [groupUpd, hq, ih hmem]

theorem firstKeys_congr (key : Record → Option String) :
    ∀ (data : List Record) (s1 s2 : List String),
      (∀ x, x ∈ s1 ↔ x ∈ s2) → firstKeys key data s1 = firstKeys key data s2 := by
  intro data
  induction data with
  | nil => intro s1 s2 h; rfl
  | cons r rs ih =>
    intro s1 s2 h
    cases hk : key r with
    | none => simp only [firstKeys, hk]; exact ih s1 s2 h
    | some k =>
      simp only [firstKeys, hk]
      by_cases hmem : k ∈ s1
      · rw [if_pos hmem, if_pos ((h k).mp hmem)]
        exact ih s1 s2 h
      · rw [if_neg hmem, if_neg (fun hc => hmem ((h k).mpr hc))]
        have h2 : ∀ x, x ∈ k :: s1 ↔ x ∈ k :: s2 := by
          intro x
          simp only [List.mem_cons]
          rw [h x]
        rw [ih (k :: s1) (k :: s2) h2]

theorem map_fst_foldl_groupStep {β : Type} (key : Record → Option String)
    (g : Record → β → β) (i : β) :
    ∀ (data : List Record) (acc : List (String × β)),
      (data.foldl (groupStep key g i) acc).map Prod.fst =
        acc.map Prod.fst ++ firstKeys key data (acc.map Prod.fst) := by
  intro data
  induction data with
  | nil => intro acc; simp [firstKeys]
  | cons r rs ih =>
    intro acc
    rw [List.foldl_cons]
    cases hk : key r with
    | none =>
      have hstep : groupStep key g i acc r = acc := by simp [groupStep, hk]
      rw [hstep, ih acc]
      simp only [firstKeys, hk]
    | some k =>
      have hstep : groupStep key g i acc r = groupUpd k (g r) i acc := by
        simp [groupStep, hk]
      rw [hstep]
      by_cases hmem : k ∈ acc.map Prod.fst
      · rw [ih (groupUpd k (g r) i acc), map_fst_groupUpd_mem k (g r) i acc hmem]
        simp only [firstKeys, hk]
        rw [if_pos hmem]
      · rw [ih (groupUpd k (g r) i acc), map_fst_groupUpd_not_mem k (g r) i acc hmem]
        simp only [firstKeys, hk]
        rw [if_neg hmem]
        have hcongr : firstKeys key rs (acc.map Prod.fst ++ [k]) =
            firstKeys key rs (k :: acc.map Prod.fst) := by
          apply firstKeys_congr
          intro x
          simp only [List.mem_append, List.mem_singleton, List.mem_cons]
          tauto
        rw [hcongr]
        simp

theorem firstKeys_disjoint_seen (key : Record → Option String) :
    ∀ (data : List Record) (seen : List String) (x : String),
      x ∈ firstKeys key data seen → x ∉ seen := by
  intro data
  induction data with
  | nil => intro seen x h; cases h
  | cons r rs ih =>
    intro seen x h
    cases hk : key r with
    | none =>
      simp only [firstKeys, hk] at h
      exact ih seen x h
    | some k =>
      simp only [firstKeys, hk] at h
      by_cases hmem : k ∈ seen
      · rw [if_pos hmem] at h
        exact ih seen x h
      · rw [if_neg hmem] at h
        rcases List.mem_cons.mp h with h2 | h2
        · subst h2; exact hmem
        · have h3 := ih (k :: seen) x h2
          intro hc
          exact h3 (List.mem_cons_of_mem k hc)

theorem firstKeys_nodup (key : Record → Option String) :
    ∀ (data : List Record) (seen : List String), (firstKeys key data seen).Nodup := by
  intro data
  induction data with
  | nil => intro seen; simp [firstKeys]
  | cons r rs ih =>
    intro seen
    cases hk : key r with
    | none => simp only [firstKeys, hk]; exact ih seen
    | some k =>
      simp only [firstKeys, hk]
      by_cases hmem : k ∈ seen
      · rw [if_pos hmem]
        exact ih seen
      · rw [if_neg hmem]
        refine List.Nodup.cons ?_ (ih (k :: seen))
        intro hc
        exact firstKeys_disjoint_seen key rs (k :: seen) k hc (List.mem_cons_self k seen)

theorem lookupS_eq_of_mem {β : Type} :
    ∀ (l : List (String × β)) (k : String) (v : β),
      (l.map Prod.fst).Nodup → (k, v) ∈ l → lookupS k l = some v := by
  intro l
  induction l with
  | nil => intro k v _ h; cases h
  | cons p t ih =>
    obtain ⟨q, w⟩ := p
    intro k v hnd h
    have hnd2 : q ∉ t.map Prod.fst ∧ (t.map Prod.fst).Nodup := by
      rw [List.map_cons] at hnd
      exact List.nodup_cons.mp hnd
    rcases List.mem_cons.mp h with h2 | h2
    · have hq : q = k := congrArg Prod.fst h2.symm
      have hv : w = v := congrArg Prod.snd h2.symm
      subst hq; subst hv
      simp [lookupS]
    · by_cases hq : q = k
      · subst hq
        have : q ∈ t.map Prod.fst := List.mem_map.mpr ⟨(q, v), h2, rfl⟩
        exact absurd this hnd2.1
      · simp only [lookupS, if_neg hq]
        exact ih k v hnd2.2 h2

theorem mem_of_lookupS {β : Type} :
    ∀ (l : List (String × β)) (k : String) (v : β),
      lookupS k l = some v → (k, v) ∈ l := by
  intro l
  induction l with
  | nil => intro k v h; cases h
  | cons p t ih =>
    obtain ⟨q, w⟩ := p
    intro k v h
    by_cases hq : q = k
    · subst hq
      simp only [lookupS, if_pos rfl] at h
      have : w = v := Option.some_injective _ h
      subst this
      exact List.mem_cons_self _ _
    · simp only [lookupS, if_neg hq] at h
      exact List.mem_cons_of_mem _ (ih k v h)

theorem mem_insB {α : Type} (le : α → α → Bool) (a : α) :
    ∀ (l : List α) (x : α), x ∈ insB le a l ↔ x = a ∨ x ∈ l := by
  intro l
  induction l with
  | nil => intro x; simp [insB]
  | cons y ys ih =>
    intro x
    unfold insB
    by_cases hc : le a y = true
    · rw [if_pos hc]
      simp [List.mem_cons]
    · rw [if_neg hc]
      simp only [List.mem_cons, ih x]
      tauto

theorem mem_sortB {α : Type} (le : α → α → Bool) :
    ∀ (l : List α) (x : α), x ∈ sortB le l ↔ x ∈ l := by
  intro l
  induction l with
  | nil => intro x; simp [sortB]
  | cons y ys ih =>
    intro x
    unfold sortB
    rw [mem_insB, List.mem_cons, ih x]

theorem length_insB {α : Type} (le : α → α → Bool) (a : α) :
    ∀ (l : List α), (insB le a l).length = l.length + 1 := by
  intro l
  induction l with
  | nil => rfl
  | cons y ys ih =>
    unfold insB
    by_cases hc : le a y = true
    · rw [if_pos hc]; rfl
    · rw [if_neg hc]
      simp only [List.length_cons, ih]

theorem length_sortB {α : Type} (le : α → α → Bool) :
    ∀ (l : List α), (sortB le l).length = l.length := by
  intro l
  induction l with
  | nil => rfl
  | cons y ys ih =>
    unfold sortB
    rw [length_insB, ih]
    rfl

theorem pairwise_insB_countGe :
    ∀ (l : List (String × Nat)) (x : String × Nat),
      l.Pairwise (fun p q => q.2 ≤ p.2) →
      (insB DataProcessor.countGeB x l).Pairwise (fun p q => q.2 ≤ p.2) := by
  intro l
  induction l with
  | nil => intro x _; simp [insB]
  | cons y ys ih =>
    intro x hp
    rw [List.pairwise_cons] at hp
    obtain ⟨hy, hys⟩ := hp
    unfold insB
    by_cases hc : DataProcessor.countGeB x y = true
    · rw [if_pos hc]
      have hxy : y.2 ≤ x.2 := by
        unfold DataProcessor.countGeB at hc
        exact of_decide_eq_true hc
      rw [List.pairwise_cons]
      constructor
      · intro z hz
        rcases List.mem_cons.mp hz with h2 | h2
        · subst h2; exact hxy
        · exact le_trans (hy z h2) hxy
      · rw [List.pairwise_cons]
        exact ⟨hy, hys⟩
    · rw [if_neg hc]
      have hxy : x.2 < y.2 := by
        unfold DataProcessor.countGeB at hc
        simpa using hc
      rw [List.pairwise_cons]
      constructor
      · intro z hz
        rcases (mem_insB DataProcessor.countGeB x ys z).mp hz with h2 | h2
        · subst h2; omega
        · exact hy z h2
      · exact ih x hys

theorem sortB_sorted_countGe :
    ∀ (l : List (String × Nat)),
      (sortB DataProcessor.countGeB l).Pairwise (fun p q => q.2 ≤ p.2) := by
  intro l
  induction l with
  | nil => simp [sortB]
  | cons y ys ih =>
    unfold sortB
    exact pairwise_insB_countGe _ y ih

theorem filter_insB_count :
    ∀ (l : List (String × Nat)) (x : String × Nat) (c : Nat),
      (insB DataProcessor.countGeB x l).filter (fun p => decide (p.2 = c)) =
        (if x.2 = c then x :: l.filter (fun p => decide (p.2 = c))
         else l.filter (fun p => decide (p.2 = c))) := by
  intro l
  induction l with
  | nil =>
    intro x c
    by_cases hx : x.2 = c
    · rw [if_pos hx]
      simp [insB, List.filter, hx]
    · rw [if_neg hx]
      simp [insB, List.filter, hx]
  | cons y ys ih =>
    intro x c
    unfold insB
    by_cases hc : DataProcessor.countGeB x y = true
    · rw [if_pos hc]
      by_cases hx : x.2 = c
      · rw [if_pos hx]
        simp [List.filter_cons, hx]
      · rw [if_neg hx]
        simp [List.filter_cons, hx]
    · rw [if_neg hc]
      have hxy : x.2 < y.2 := by
        unfold DataProcessor.countGeB at hc
        simpa using hc
      rw [List.filter_cons, List.filter_cons]
      simp only [decide_eq_true_eq]
      by_cases hy : y.2 = c
      · have hx : ¬ x.2 = c := by omega
        rw [if_neg hx, if_pos hy, if_pos hy]
        rw [ih x c, if_neg hx]
      · by_cases hx : x.2 = c
        · rw [if_pos hx, if_neg hy, if_neg hy]
          rw [ih x c, if_pos hx]
        · rw [if_neg hx, if_neg hy, if_neg hy]
          rw [ih x c, if_neg hx]

theorem filter_sortB_count :
    ∀ (l : List (String × Nat)) (c : Nat),
      (sortB DataProcessor.countGeB l).filter (fun p => decide (p.2 = c)) =
        l.filter (fun p => decide (p.2 = c)) := by
  intro l
  induction l with
  | nil => intro c; rfl
  | cons y ys ih =>
    intro c
    unfold sortB
    rw [filter_insB_count, List.filter_cons]
    simp only [decide_eq_true_eq]
    by_cases hy : y.2 = c
    · rw [if_pos hy, if_pos hy, ih c]
    · rw [if_neg hy, if_neg hy, ih c]

theorem foldl_count_eq_length :
    ∀ (ms : List Record) (n : Nat), ms.foldl (fun b _ => b + 1) n = n + ms.length := by
  intro ms
  induction ms with
  | nil => intro n; simp
  | cons r rs ih =>
    intro n
    rw [List.foldl_cons, ih]
    simp only [List.length_cons]
    omega

theorem mem_insStr (s : List String) (e x : String) :
    x ∈ DataProcessor.insStr s e ↔ x ∈ s ∨ x = e := by
  unfold DataProcessor.insStr
  by_cases hc : e ∈ s
  · rw [if_pos hc]
    constructor
    · exact Or.inl
    · intro h
      rcases h with h | h
      · exact h
      · subst h; exact hc
  · rw [if_neg hc]
    simp [List.mem_append]

theorem nodup_insStr (s : List String) (e : String) (h : s.Nodup) :
    (DataProcessor.insStr s e).Nodup := by
  unfold DataProcessor.insStr
  by_cases hc : e ∈ s
  · rw [if_pos hc]; exact h
  · rw [if_neg hc]
    rw [List.nodup_append]
    refine ⟨h, List.nodup_singleton e, ?_⟩
    intro x hx hex
    rw [List.mem_singleton] at hex
    subst hex
    exact hc hx

theorem insStr_fold_spec :
    ∀ (es : List String) (s : List String), s.Nodup →
      ((es.foldl DataProcessor.insStr s).Nodup ∧
       ∀ x, x ∈ es.foldl DataProcessor.insStr s ↔ x ∈ s ∨ x ∈ es) := by
  intro es
  induction es with
  | nil =>
    intro s h
    exact ⟨h, by simp⟩
  | cons e es2 ih =>
    intro s h
    rw [List.foldl_cons]
    obtain ⟨h1, h2⟩ := ih (DataProcessor.insStr s e) (nodup_insStr s e h)
    refine ⟨h1, ?_⟩
    intro x
    rw [h2 x, mem_insStr]
    simp only [List.mem_cons]
    tauto

theorem nodup_same_mem_length {l1 l2 : List String} (h1 : l1.Nodup) (h2 : l2.Nodup)
    (h : ∀ x, x ∈ l1 ↔ x ∈ l2) : l1.length = l2.length := by
  have hf : l1.toFinset = l2.toFinset := by
    apply Finset.ext
    intro x
    rw [List.mem_toFinset, List.mem_toFinset]
    exact h x
  calc l1.length = l1.toFinset.card := (List.toFinset_card_of_nodup h1).symm
    _ = l2.toFinset.card := by rw [hf]
    _ = l2.length := List.toFinset_card_of_nodup h2

theorem foldl_empStep_filterMap :
    ∀ (ms : List Record) (s : List String),
      ms.foldl (fun b r => DataProcessor.empStep r b) s =
        (ms.filterMap (fun r => if r.employee = "" then none else some r.employee)).foldl
          DataProcessor.insStr s := by
  intro ms
  induction ms with
  | nil => intro s; rfl
  | cons r rs ih =>
    intro s
    rw [List.foldl_cons, List.filterMap_cons]
    by_cases hc : r.employee = ""
    · rw [if_pos hc]
      have hstep : DataProcessor.empStep r s = s := by
        unfold DataProcessor.empStep
        rw [if_pos hc]
      rw [hstep, ih]
    · rw [if_neg hc]
      have hstep : DataProcessor.empStep r s = DataProcessor.insStr s r.employee := by
        unfold DataProcessor.empStep
        rw [if_neg hc]
      rw [hstep, List.foldl_cons, ih]

theorem foldl_empStep_distinct (ms : List Record) :
    (ms.foldl (fun b r => DataProcessor.empStep r b) []).length =
      DataProcessor.distinctPatients ms := by
  rw [foldl_empStep_filterMap]
  unfold DataProcessor.distinctPatients
  set es := ms.filterMap (fun r => if r.employee = "" then none else some r.employee) with hes
  obtain ⟨h1, h2⟩ := insStr_fold_spec es [] List.nodup_nil
  apply nodup_same_mem_length h1 es.nodup_dedup
  intro x
  rw [h2 x, List.mem_dedup]
  simp

theorem foldl_empStep_empty :
    ∀ (ms : List Record), (∀ r ∈ ms, r.employee = "") →
      ∀ (s : List String), ms.foldl (fun b r => DataProcessor.empStep r b) s = s := by
  intro ms
  induction ms with
  | nil => intro _ s; rfl
  | cons r rs ih =>
    intro h s
    rw [List.foldl_cons]
    have hstep : DataProcessor.empStep r s = s := by
      unfold DataProcessor.empStep
      rw [if_pos (h r (List.mem_cons_self r rs))]
    rw [hstep]
    exact ih (fun q hq => h q (List.mem_cons_of_mem r hq)) s

theorem groupFold_keys {β : Type} (key : Record → Option String) (g : Record → β → β)
    (i : β) (data : List Record) :
    (groupFold key g i data).map Prod.fst = firstKeys key data [] := by
  unfold groupFold
  rw [map_fst_foldl_groupStep]
  simp

theorem groupFold_keys_nodup {β : Type} (key : Record → Option String) (g : Record → β → β)
    (i : β) (data : List Record) :
    ((groupFold key g i data).map Prod.fst).Nodup := by
  rw [groupFold_keys]
  exact firstKeys_nodup key data []

theorem lookupS_groupFold {β : Type} (key : Record → Option String) (g : Record → β → β)
    (i : β) (data : List Record) (k : String) :
    lookupS k (groupFold key g i data) =
      (if rowsWithKey key k data = [] then none
       else some ((rowsWithKey key k data).foldl (fun b r => g r b) i)) := by
  unfold groupFold
  exact lookupS_foldl_none key g i data [] k rfl

theorem mem_groupFold_iff {β : Type} (key : Record → Option String) (g : Record → β → β)
    (i : β) (data : List Record) (k : String) (v : β) :
    (k, v) ∈ groupFold key g i data ↔ lookupS k (groupFold key g i data) = some v := by
  constructor
  · intro h
    exact lookupS_eq_of_mem _ k v (groupFold_keys_nodup key g i data) h
  · intro h
    exact mem_of_lookupS _ k v h

theorem mem_jsEntries {β : Type} (l : List (String × β)) (x : String × β) :
    x ∈ jsEntries l ↔ x ∈ l := by
  unfold jsEntries
  rw [List.mem_append, mem_sortB, List.mem_filter, List.mem_filter]
  by_cases h : (arrayIndex x.1).isSome = true
  · simp [h]
  · simp [h]

theorem map_fst_insB_keyle {β : Type} (le : String → String → Bool) (x : String × β) :
    ∀ (l : List (String × β)),
      (insB (fun a b => le a.1 b.1) x l).map Prod.fst = insB le x.1 (l.map Prod.fst) := by
  intro l
  induction l with
  | nil => rfl
  | cons y ys ih =>
    rw [List.map_cons]
    show (insB (fun a b => le a.1 b.1) x (y :: ys)).map Prod.fst =
      insB le x.1 (y.1 :: ys.map Prod.fst)
    unfold insB
    by_cases h : le x.1 y.1 = true
    · rw [if_pos h, if_pos h]
      simp
    · rw [if_neg h, if_neg h, List.map_cons, ih]

theorem map_fst_sortB_keyle {β : Type} (le : String → String → Bool) :
    ∀ (l : List (String × β)),
      (sortB (fun a b => le a.1 b.1) l).map Prod.fst = sortB le (l.map Prod.fst) := by
  intro l
  induction l with
  | nil => rfl
  | cons y ys ih =>
    rw [List.map_cons]
    show (insB (fun a b => le a.1 b.1) y
        (sortB (fun a b => le a.1 b.1) ys)).map Prod.fst =
      insB le y.1 (sortB le (ys.map Prod.fst))
    rw [map_fst_insB_keyle le y (sortB (fun a b => le a.1 b.1) ys), ih]

theorem map_fst_jsEntries {β : Type} (l : List (String × β)) :
    (jsEntries l).map Prod.fst = jsKeyOrder (l.map Prod.fst) := by
  unfold jsEntries jsKeyOrder
  rw [List.map_append, map_fst_sortB_keyle]
  have h1 : (l.filter (fun p => (arrayIndex p.1).isSome)).map Prod.fst =
      (l.map Prod.fst).filter (fun k => (arrayIndex k).isSome) := by
    rw [List.filter_map]
    exact congrArg (List.map Prod.fst) (List.filter_congr (fun a _ => rfl))
  have h2 : (l.filter (fun p => !(arrayIndex p.1).isSome)).map Prod.fst =
      (l.map Prod.fst).filter (fun k => !(arrayIndex k).isSome) := by
    rw [List.filter_map]
    exact congrArg (List.map Prod.fst) (List.filter_congr (fun a _ => rfl))
  rw [h1, h2]

/-- C4 counterexample. With a text finding `A` appearing before the
numeric finding 7 (each occurring once), the counts object's key `"7"`
is an array index and `Object.entries` fronts it, so the tied pair for
`7` is emitted ahead of the earlier-appearing `A`: the tie is not
broken by order of first appearance. -/
theorem C4_getTopFindings_counterexample :
    DataProcessor.getTopFindings exNumFinding 2 = [("7", 1), ("A", 1)] ∧
    firstKeys DataProcessor.keyOfFinding exNumFinding [] = ["A", "7"] ∧
    DataProcessor.getTopFindings exNumFinding 2 ≠ [("A", 1), ("7", 1)] := by
  refine ⟨by decide, by decide, by decide⟩

/-- C4 amended. `getTopFindings` returns at most `topN` entries; each
returned entry pairs a truthy finding value occurring in the data with
its record-level occurrence count; the output is sorted descending by
count; within each count class the surviving order is exactly the
enumeration order of the counts object (stability of the sort); and
that enumeration order is the ECMA-262 one — array-index keys first in
ascending numeric order, then the remaining findings in order of first
appearance. -/
theorem C4_getTopFindings_amended (data : List Record) (topN : Nat) :
    (DataProcessor.getTopFindings data topN).length ≤ topN ∧
    (∀ p ∈ DataProcessor.getTopFindings data topN,
      p.2 = data.countP (fun r => decide (DataProcessor.keyOfFinding r = some p.1)) ∧
      ∃ r ∈ data, DataProcessor.keyOfFinding r = some p.1) ∧
    (DataProcessor.getTopFindings data topN).Pairwise (fun p q => q.2 ≤ p.2) ∧
    (∀ c, (sortB DataProcessor.countGeB
        (jsEntries (DataProcessor.topFindingCounts data))).filter
        (fun p => decide (p.2 = c)) =
      (jsEntries (DataProcessor.topFindingCounts data)).filter
        (fun p => decide (p.2 = c))) ∧
    (jsEntries (DataProcessor.topFindingCounts data)).map Prod.fst =
      jsKeyOrder (firstKeys DataProcessor.keyOfFinding data []) := by
  refine ⟨?_, ?_, ?_, ?_, ?_⟩
  · exact List.length_take_le topN _
  · intro p hp
    obtain ⟨k, v⟩ := p
    have hp2 : (k, v) ∈ sortB DataProcessor.countGeB
        (jsEntries (DataProcessor.topFindingCounts data)) :=
      List.take_subset topN _ hp
    have hp3 : (k, v) ∈ jsEntries (DataProcessor.topFindingCounts data) :=
      (mem_sortB DataProcessor.countGeB _ (k, v)).mp hp2
    have hp4 : (k, v) ∈ DataProcessor.topFindingCounts data :=
      (mem_jsEntries _ (k, v)).mp hp3
    have hlk : lookupS k (DataProcessor.topFindingCounts data) = some v :=
      lookupS_eq_of_mem _ k v
        (groupFold_keys_nodup DataProcessor.keyOfFinding (fun _ n => n + 1) 0 data) hp4
    have hchar := lookupS_groupFold DataProcessor.keyOfFinding (fun _ n => n + 1) 0 data k
    unfold DataProcessor.topFindingCounts at hlk
    rw [hlk] at hchar
    by_cases hrows : rowsWithKey DataProcessor.keyOfFinding k data = []
    · rw [if_pos hrows] at hchar
      cases hchar
    · rw [if_neg hrows] at hchar
      have hv : v = (rowsWithKey DataProcessor.keyOfFinding k data).foldl
          (fun b _ => b + 1) 0 := Option.some_injective _ hchar
      constructor
      · rw [hv, foldl_count_eq_length]
        unfold rowsWithKey
        rw [List.countP_eq_length_filter]
        simp
      · obtain ⟨r, hr⟩ := List.exists_mem_of_ne_nil _ hrows
        unfold rowsWithKey at hr
        obtain ⟨hrd, hrk⟩ := List.mem_filter.mp hr
        exact ⟨r, hrd, of_decide_eq_true hrk⟩
  · exact List.Pairwise.sublist (List.take_sublist topN _) (sortB_sorted_countGe _)
  · intro c
    exact filter_sortB_count _ c
  · rw [map_fst_jsEntries]
    unfold DataProcessor.topFindingCounts
    rw [groupFold_keys]

/-- Concrete witness for the amended top-findings theorem at the
counterexample dataset and its fronted entry `("7", 1)`. -/
theorem C4_getTopFindings_amended_witness :
    (DataProcessor.getTopFindings exNumFinding 2).length ≤ 2 ∧
    (1 : Nat) = exNumFinding.countP
      (fun r => decide (DataProcessor.keyOfFinding r = some "7")) ∧
    ∃ r ∈ exNumFinding, DataProcessor.keyOfFinding r = some "7" := by
  have h := C4_getTopFindings_amended exNumFinding 2
  have h2 := h.2.1 ("7", 1) (by decide)
  exact ⟨h.1, h2.1, h2.2⟩

theorem ageBracketFold_eq :
    ∀ (data : List Record) (seen : List String) (g : String → Nat) (b : String),
      DataProcessor.ageBracketFold data seen g b =
        g b + (DataProcessor.firstRecordsAux data seen).countP
          (fun r => decide (DataProcessor.categorizeAgeBracket r.age = b)) := by
  intro data
  induction data with
  | nil =>
    intro seen g b
    simp [DataProcessor.ageBracketFold, DataProcessor.firstRecordsAux]
  | cons r rs ih =>
    intro seen g b
    by_cases h1 : r.employee = ""
    · simp only [DataProcessor.ageBracketFold, DataProcessor.firstRecordsAux, if_pos h1]
      exact ih seen g b
    · by_cases h2 : r.employee ∈ seen
      · simp only [DataProcessor.ageBracketFold, DataProcessor.firstRecordsAux,
          if_neg h1, if_pos h2]
        exact ih seen g b
      · simp only [DataProcessor.ageBracketFold, DataProcessor.firstRecordsAux,
          if_neg h1, if_neg h2]
        rw [ih (r.employee :: seen) _ b, List.countP_cons]
        by_cases hb : DataProcessor.categorizeAgeBracket r.age = b
        · rw [if_pos hb.symm]
          simp [hb]
          omega
        · rw [if_neg (fun hc => hb hc.symm)]
          simp [hb]

theorem getAgeBracketDistribution_eq (data : List Record) :
    DataProcessor.getAgeBracketDistribution data =
      (DataProcessor.AGE_BRACKETS.filter
        (fun b => decide (0 < DataProcessor.bracketCount data b))).map
        (fun b => (b, DataProcessor.bracketCount data b)) := by
  unfold DataProcessor.getAgeBracketDistribution
  have hg : ∀ b, DataProcessor.ageBracketFold data [] (fun _ => 0) b =
      DataProcessor.bracketCount data b := by
    intro b
    rw [ageBracketFold_eq]
    unfold DataProcessor.bracketCount DataProcessor.firstRecords
    simp
  simp only [hg]
  have hfilter : DataProcessor.AGE_BRACKETS.filter
      (fun b => decide (DataProcessor.bracketCount data b ≠ 0)) =
      DataProcessor.AGE_BRACKETS.filter
      (fun b => decide (0 < DataProcessor.bracketCount data b)) := by
    apply List.filter_congr
    intro b _
    rw [decide_eq_decide]
    omega
  rw [hfilter]

theorem firstRecordsAux_spec :
    ∀ (data : List Record) (seen : List String),
      ((DataProcessor.firstRecordsAux data seen).map (fun r => r.employee)).Nodup ∧
      (∀ r ∈ DataProcessor.firstRecordsAux data seen,
        r.employee ≠ "" ∧ r.employee ∉ seen ∧ r ∈ data) := by
  intro data
  induction data with
  | nil =>
    intro seen
    simp [DataProcessor.firstRecordsAux]
  | cons r rs ih =>
    intro seen
    by_cases h1 : r.employee = ""
    · simp only [DataProcessor.firstRecordsAux, if_pos h1]
      obtain ⟨ha, hb⟩ := ih seen
      refine ⟨ha, ?_⟩
      intro q hq
      obtain ⟨x, y, z⟩ := hb q hq
      exact ⟨x, y, List.mem_cons_of_mem r z⟩
    · by_cases h2 : r.employee ∈ seen
      · simp only [DataProcessor.firstRecordsAux, if_neg h1, if_pos h2]
        obtain ⟨ha, hb⟩ := ih seen
        refine ⟨ha, ?_⟩
        intro q hq
        obtain ⟨x, y, z⟩ := hb q hq
        exact ⟨x, y, List.mem_cons_of_mem r z⟩
      · simp only [DataProcessor.firstRecordsAux, if_neg h1, if_neg h2]
        obtain ⟨ha, hb⟩ := ih (r.employee :: seen)
        constructor
        · rw [List.map_cons, List.nodup_cons]
          constructor
          · intro hc
            obtain ⟨q, hq, he⟩ := List.mem_map.mp hc
            obtain ⟨_, hy, _⟩ := hb q hq
            exact hy (he ▸ List.mem_cons_self r.employee seen)
          · exact ha
        · intro q hq
          rcases List.mem_cons.mp hq with h3 | h3
          · subst h3
            exact ⟨h1, h2, List.mem_cons_self q rs⟩
          · obtain ⟨x, y, z⟩ := hb q h3
            exact ⟨x, fun hc => y (List.mem_cons_of_mem _ hc), List.mem_cons_of_mem r z⟩

theorem firstRecordsAux_filter_seen :
    ∀ (data : List Record) (seen : List String) (e : String), e ∈ seen →
      (DataProcessor.firstRecordsAux data seen).filter
        (fun r => decide (r.employee = e)) = [] := by
  intro data
  induction data with
  | nil => intro seen e _; rfl
  | cons r rs ih =>
    intro seen e he
    by_cases h1 : r.employee = ""
    · simp only [DataProcessor.firstRecordsAux, if_pos h1]
      exact ih seen e he
    · by_cases h2 : r.employee ∈ seen
      · simp only [DataProcessor.firstRecordsAux, if_neg h1, if_pos h2]
        exact ih seen e he
      · simp only [DataProcessor.firstRecordsAux, if_neg h1, if_neg h2]
        rw [List.filter_cons]
        have hne : ¬ r.employee = e := by
          intro hc
          exact h2 (hc ▸ he)
        simp only [hne, decide_eq_true_eq, if_neg hne]
        exact ih (r.employee :: seen) e (List.mem_cons_of_mem _ he)

theorem firstRecordsAux_filter_first :
    ∀ (data : List Record) (seen : List String) (e : String), e ≠ "" → e ∉ seen →
      (DataProcessor.firstRecordsAux data seen).filter
          (fun r => decide (r.employee = e)) =
        (data.filter (fun r => decide (r.employee = e))).take 1 := by
  intro data
  induction data with
  | nil => intro seen e _ _; rfl
  | cons r rs ih =>
    intro seen e he hs
    by_cases h1 : r.employee = ""
    · have hne : ¬ r.employee = e := by
        intro hc
        exact he (hc.symm.trans h1)
      simp only [DataProcessor.firstRecordsAux, if_pos h1, List.filter_cons,
        hne, decide_eq_true_eq, if_neg hne]
      exact ih seen e he hs
    · by_cases h2 : r.employee ∈ seen
      · have hne : ¬ r.employee = e := by
          intro hc
          exact hs (hc ▸ h2)
        simp only [DataProcessor.firstRecordsAux, if_neg h1, if_pos h2, List.filter_cons,
          hne, decide_eq_true_eq, if_neg hne]
        exact ih seen e he hs
      · simp only [DataProcessor.firstRecordsAux, if_neg h1, if_neg h2, List.filter_cons]
        by_cases hre : r.employee = e
        · simp only [hre, decide_eq_true_eq, if_pos rfl]
          have hseen : e ∈ e :: seen := List.mem_cons_self e seen
          rw [hre] at *
          rw [firstRecordsAux_filter_seen rs (e :: seen) e hseen]
          simp
        · simp only [hre, decide_eq_true_eq, if_neg hre]
          have hs2 : e ∉ r.employee :: seen := by
            intro hc
            rcases List.mem_cons.mp hc with h3 | h3
            · exact hre h3.symm
            · exact hs h3
          exact ih (r.employee :: seen) e he hs2

/-- C5. The age-bracket distribution equals, bracket by bracket in the
fixed ten-bracket order restricted to inhabited brackets (not sorted by
count), the number of distinct truthy employee numbers whose first
record's age categorizes into the bracket (`Unknown` for a `null` age);
the surviving rows carry pairwise-distinct non-empty employee numbers
drawn from the data, and for each non-empty employee number the
surviving row is exactly the first matching row of the input. -/
theorem C5_getAgeBracketDistribution (data : List Record) :
    DataProcessor.getAgeBracketDistribution data =
      (DataProcessor.AGE_BRACKETS.filter
        (fun b => decide (0 < DataProcessor.bracketCount data b))).map
        (fun b => (b, DataProcessor.bracketCount data b)) ∧
    ((DataProcessor.firstRecords data).map (fun r => r.employee)).Nodup ∧
    (∀ r ∈ DataProcessor.firstRecords data, r.employee ≠ "" ∧ r ∈ data) ∧
    (∀ e, e ≠ "" →
      (DataProcessor.firstRecords data).filter (fun r => decide (r.employee = e)) =
        (data.filter (fun r => decide (r.employee = e))).take 1) := by
  obtain ⟨ha, hb⟩ := firstRecordsAux_spec data []
  refine ⟨getAgeBracketDistribution_eq data, ha, ?_, ?_⟩
  · intro r hr
    obtain ⟨x, _, z⟩ := hb r hr
    exact ⟨x, z⟩
  · intro e he
    exact firstRecordsAux_filter_first data [] e he (List.not_mem_nil e)

/-- Concrete witness for the age-bracket theorem: on the
specification's scenario the distribution is one patient aged 25-34 and
one aged 65-74, in that fixed order, and employee `E1`'s surviving row
is its first row. -/
theorem C5_getAgeBracketDistribution_witness :
    DataProcessor.getAgeBracketDistribution exScenario =
      [("25-34", 1), ("65-74", 1)] ∧
    (DataProcessor.firstRecords exScenario).filter
        (fun r => decide (r.employee = "E1")) =
      (exScenario.filter (fun r => decide (r.employee = "E1"))).take 1 := by
  have h := C5_getAgeBracketDistribution exScenario
  exact ⟨by decide, h.2.2.2 "E1" (by decide)⟩

theorem sum_map_add (l : List String) (f g : String → Nat) :
    (l.map (fun b => f b + g b)).sum = (l.map f).sum + (l.map g).sum := by
  induction l with
  | nil => rfl
  | cons b t ih =>
    simp only [List.map_cons, List.sum_cons, ih]
    omega

theorem sum_indicator_zero (s : String) :
    ∀ (l : List String), s ∉ l →
      (l.map (fun b => if s = b then 1 else 0)).sum = 0 := by
  intro l
  induction l with
  | nil => intro _; rfl
  | cons b t ih =>
    intro h
    have hb : ¬ s = b := fun hc => h (hc ▸ List.mem_cons_self b t)
    simp only [List.map_cons, List.sum_cons, if_neg hb]
    rw [ih (fun hc => h (List.mem_cons_of_mem b hc))]

theorem sum_indicator_one (s : String) :
    ∀ (l : List String), l.Nodup → s ∈ l →
      (l.map (fun b => if s = b then 1 else 0)).sum = 1 := by
  intro l
  induction l with
  | nil => intro _ h; cases h
  | cons b t ih =>
    intro hnd hmem
    obtain ⟨hb, ht⟩ := List.nodup_cons.mp hnd
    rcases List.mem_cons.mp hmem with h | h
    · subst h
      simp only [List.map_cons, List.sum_cons, if_pos rfl]
      rw [sum_indicator_zero s t hb]
      simp
    · have hsb : ¬ s = b := by
        intro hc
        subst hc
        exact hb h
      simp only [List.map_cons, List.sum_cons, if_neg hsb]
      rw [ih ht h]

theorem categorize_some_mem (a : Rat) :
    DataProcessor.categorizeAgeBracket (some a) ∈ DataProcessor.nonUnknownBrackets := by
  simp only [DataProcessor.categorizeAgeBracket, DataProcessor.nonUnknownBrackets]
  split_ifs <;> simp

theorem sum_bracket_counts :
    ∀ (l : List Record),
      (DataProcessor.nonUnknownBrackets.map
        (fun b => l.countP
          (fun r => decide (DataProcessor.categorizeAgeBracket r.age = b)))).sum =
        l.countP (fun r => r.age.isSome) := by
  intro l
  induction l with
  | nil => simp
  | cons r rs ih =>
    simp only [List.countP_cons]
    rw [sum_map_add, ih]
    cases ha : r.age with
    | none =>
      have hzero : (DataProcessor.nonUnknownBrackets.map
          (fun b => if decide (DataProcessor.categorizeAgeBracket none = b) = true
            then 1 else 0)).sum = 0 := by
        simp only [decide_eq_true_eq]
        apply sum_indicator_zero
        decide
      rw [hzero]
      rfl
    | some a =>
      have hone : (DataProcessor.nonUnknownBrackets.map
          (fun b => if decide (DataProcessor.categorizeAgeBracket (some a) = b) = true
            then 1 else 0)).sum = 1 := by
        simp only [decide_eq_true_eq]
        apply sum_indicator_one
        · decide
        · exact categorize_some_mem a
      rw [hone]
      rfl

theorem sum_filter_pos (l : List String) (g : String → Nat) :
    ((l.filter (fun b => decide (0 < g b))).map g).sum = (l.map g).sum := by
  induction l with
  | nil => rfl
  | cons b t ih =>
    rw [List.filter_cons, List.map_cons, List.sum_cons]
    by_cases hb : 0 < g b
    · rw [if_pos (decide_eq_true hb), List.map_cons, List.sum_cons, ih]
    · have hcond : ¬ (decide (0 < g b) = true) := by simpa using hb
      rw [if_neg hcond, ih]
      omega

/-- C8. Summing the counts of the non-`Unknown` brackets of the
age-bracket distribution gives exactly the number of distinct truthy
employee numbers whose first record carries a numeric age: the nine
numeric brackets partition those patients. -/
theorem C8_bracket_partition (data : List Record) :
    (((DataProcessor.getAgeBracketDistribution data).filter
        (fun p => decide (p.1 ≠ "Unknown"))).map Prod.snd).sum =
      (DataProcessor.firstRecords data).countP (fun r => r.age.isSome) := by
  rw [getAgeBracketDistribution_eq]
  rw [List.filter_map, List.map_map]
  have h1 : (DataProcessor.AGE_BRACKETS.filter
        (fun b => decide (0 < DataProcessor.bracketCount data b))).filter
      ((fun p : String × Nat => decide (p.1 ≠ "Unknown")) ∘
        (fun b => (b, DataProcessor.bracketCount data b))) =
      (DataProcessor.AGE_BRACKETS.filter
        (fun b => decide (0 < DataProcessor.bracketCount data b))).filter
      (fun b => decide (b ≠ "Unknown")) :=
    List.filter_congr (fun a _ => rfl)
  rw [h1]
  have h2 : (DataProcessor.AGE_BRACKETS.filter
        (fun b => decide (0 < DataProcessor.bracketCount data b))).filter
      (fun b => decide (b ≠ "Unknown")) =
      (DataProcessor.AGE_BRACKETS.filter (fun b => decide (b ≠ "Unknown"))).filter
      (fun b => decide (0 < DataProcessor.bracketCount data b)) := by
    rw [List.filter_filter, List.filter_filter]
    apply List.filter_congr
    intro a _
    rw [Bool.and_comm]
  rw [h2]
  have h3 : DataProcessor.AGE_BRACKETS.filter (fun b => decide (b ≠ "Unknown")) =
      DataProcessor.nonUnknownBrackets := by decide
  rw [h3]
  have h4 : (DataProcessor.nonUnknownBrackets.filter
        (fun b => decide (0 < DataProcessor.bracketCount data b))).map
      (Prod.snd ∘ (fun b => (b, DataProcessor.bracketCount data b))) =
      (DataProcessor.nonUnknownBrackets.filter
        (fun b => decide (0 < DataProcessor.bracketCount data b))).map
      (DataProcessor.bracketCount data) :=
    List.map_congr_left (fun a _ => rfl)
  rw [h4, sum_filter_pos]
  have h5 : DataProcessor.nonUnknownBrackets.map (DataProcessor.bracketCount data) =
      DataProcessor.nonUnknownBrackets.map
        (fun b => (DataProcessor.firstRecords data).countP
          (fun r => decide (DataProcessor.categorizeAgeBracket r.age = b))) :=
    List.map_congr_left (fun a _ => rfl)
  rw [h5, sum_bracket_counts]

/-- C6 counterexample. The sex distribution of a dataset with one male
patient appearing before two female patients is `[(M, 1), (F, 2)]` —
the grouping object's insertion order — so its count sequence is not
sorted descending, refuting the claim's sortedness part. -/
theorem C6_getSexDistribution_counterexample :
    DataProcessor.getSexDistribution exSexData = [("M", 1), ("F", 2)] ∧
    ¬ ((DataProcessor.getSexDistribution exSexData).Pairwise
        (fun p q => q.2 ≤ p.2)) := by
  constructor
  · decide
  · intro h
    have heq : DataProcessor.getSexDistribution exSexData = [("M", 1), ("F", 2)] := by
      decide
    rw [heq, List.pairwise_cons] at h
    have := h.1 ("F", 2) (List.mem_singleton.mpr rfl)
    omega

/-- C6 amended. `getSexDistribution` groups by sex with the `Unknown`
bucket for falsy sex cells, counts distinct truthy employee numbers per
group, and returns one entry per group present — in the grouping
object's `Object.entries` enumeration order (array-index sex keys
first in ascending numeric order, then the remaining sex values in
order of first appearance), not sorted by count. -/
theorem C6_getSexDistribution_amended (data : List Record) :
    (DataProcessor.getSexDistribution data).map Prod.fst =
      jsKeyOrder (firstKeys (fun r => some (DataProcessor.sexKey r)) data []) ∧
    (∀ p ∈ DataProcessor.getSexDistribution data,
      p.2 = DataProcessor.distinctPatients
        (data.filter (fun r => decide (DataProcessor.sexKey r = p.1)))) := by
  constructor
  · unfold DataProcessor.getSexDistribution
    rw [List.map_map]
    have h1 : (jsEntries (groupFold (fun r => some (DataProcessor.sexKey r))
          DataProcessor.empStep [] data)).map
        (Prod.fst ∘ (fun p : String × List String => (p.1, p.2.length))) =
        (jsEntries (groupFold (fun r => some (DataProcessor.sexKey r))
          DataProcessor.empStep [] data)).map Prod.fst :=
      List.map_congr_left (fun a _ => rfl)
    rw [h1, map_fst_jsEntries, groupFold_keys]
  · intro p hp
    unfold DataProcessor.getSexDistribution at hp
    obtain ⟨q, hq0, hpq⟩ := List.mem_map.mp hp
    have hq : q ∈ groupFold (fun r => some (DataProcessor.sexKey r))
        DataProcessor.empStep [] data := (mem_jsEntries _ q).mp hq0
    have hlk : lookupS q.1 (groupFold (fun r => some (DataProcessor.sexKey r))
        DataProcessor.empStep [] data) = some q.2 := by
      apply lookupS_eq_of_mem _ q.1 q.2
        (groupFold_keys_nodup (fun r => some (DataProcessor.sexKey r))
          DataProcessor.empStep [] data)
      rwa [Prod.mk.eta]
    have hchar := lookupS_groupFold (fun r => some (DataProcessor.sexKey r))
      DataProcessor.empStep [] data q.1
    rw [hlk] at hchar
    by_cases hrows : rowsWithKey (fun r => some (DataProcessor.sexKey r)) q.1 data = []
    · rw [if_pos hrows] at hchar
      cases hchar
    · rw [if_neg hrows] at hchar
      have hq2 : q.2 = (rowsWithKey (fun r => some (DataProcessor.sexKey r)) q.1 data).foldl
          (fun b r => DataProcessor.empStep r b) [] := Option.some_injective _ hchar
      have hlen : p.2 = q.2.length := by
        rw [← hpq]
      rw [hlen, hq2, foldl_empStep_distinct]
      have hfeq : rowsWithKey (fun r => some (DataProcessor.sexKey r)) q.1 data =
          data.filter (fun r => decide (DataProcessor.sexKey r = q.1)) := by
        unfold rowsWithKey
        apply List.filter_congr
        intro a _
        rw [decide_eq_decide]
        exact Option.some_inj
      rw [hfeq]
      have hp1 : p.1 = q.1 := by rw [← hpq]
      rw [hp1]

theorem group_zero_mem (key : Record → Option String) (data : List Record) (k : String)
    (h1 : ∃ r ∈ data, key r = some k)
    (h2 : ∀ r ∈ data, key r = some k → r.employee = "") :
    (k, 0) ∈ (jsEntries (groupFold key DataProcessor.empStep [] data)).map
      (fun p => (p.1, p.2.length)) := by
  have hrow : rowsWithKey key k data ≠ [] := by
    obtain ⟨r, hr, hk⟩ := h1
    have hmem : r ∈ rowsWithKey key k data := by
      unfold rowsWithKey
      exact List.mem_filter.mpr ⟨hr, decide_eq_true hk⟩
    intro hc
    rw [hc] at hmem
    cases hmem
  have hall : ∀ r ∈ rowsWithKey key k data, r.employee = "" := by
    intro r hr
    unfold rowsWithKey at hr
    obtain ⟨hrd, hk⟩ := List.mem_filter.mp hr
    exact h2 r hrd (of_decide_eq_true hk)
  have hfold : (rowsWithKey key k data).foldl
      (fun b r => DataProcessor.empStep r b) [] = [] :=
    foldl_empStep_empty _ hall []
  have hlk : lookupS k (groupFold key DataProcessor.empStep [] data) = some [] := by
    rw [lookupS_groupFold, if_neg hrow, hfold]
  have hmem2 : (k, ([] : List String)) ∈ groupFold key DataProcessor.empStep [] data :=
    mem_of_lookupS _ k [] hlk
  have hmem3 : (k, ([] : List String)) ∈
      jsEntries (groupFold key DataProcessor.empStep [] data) :=
    (mem_jsEntries _ (k, [])).mpr hmem2
  exact List.mem_map.mpr ⟨(k, []), hmem3, rfl⟩

/-- C10. If some record of the dataset carries a valid date of a given
calendar day, that day's group appears in `getPatientsPerDay` even when
every record of the day has an empty employee number — then with count
0; analogously for `getPatientsPerMonth` and the day's month. -/
theorem C10_empty_employee_groups_kept (data : List Record) (d : DateTime)
    (h1 : ∃ r ∈ data, r.date = some d) :
    ((∀ r ∈ data, ∀ d2, r.date = some d2 →
        DataProcessor.formatDateKey d2 = DataProcessor.formatDateKey d →
        r.employee = "") →
      (DataProcessor.formatDateKey d, 0) ∈ DataProcessor.getPatientsPerDay data) ∧
    ((∀ r ∈ data, ∀ d2, r.date = some d2 →
        DataProcessor.formatMonthKey d2 = DataProcessor.formatMonthKey d →
        r.employee = "") →
      (DataProcessor.formatMonthKey d, 0) ∈ DataProcessor.getPatientsPerMonth data) := by
  obtain ⟨r0, hr0, hd0⟩ := h1
  constructor
  · intro h2
    unfold DataProcessor.getPatientsPerDay
    rw [mem_sortB]
    apply group_zero_mem
    · refine ⟨r0, hr0, ?_⟩
      unfold DataProcessor.keyOfDate
      rw [hd0]
      rfl
    · intro r hr hk
      unfold DataProcessor.keyOfDate at hk
      obtain ⟨d2, hd2, hfmt⟩ := Option.map_eq_some'.mp hk
      exact h2 r hr d2 hd2 hfmt
  · intro h2
    unfold DataProcessor.getPatientsPerMonth
    rw [mem_sortB]
    apply group_zero_mem
    · refine ⟨r0, hr0, ?_⟩
      unfold DataProcessor.keyOfMonth
      rw [hd0]
      rfl
    · intro r hr hk
      unfold DataProcessor.keyOfMonth at hk
      obtain ⟨d2, hd2, hfmt⟩ := Option.map_eq_some'.mp hk
      exact h2 r hr d2 hd2 hfmt

/-- Concrete witness: a dataset holding one record dated 2024-01-05
with an empty employee number still yields the 2024-01-05 day group and
the 2024-01 month group, both with count 0. -/
theorem C10_empty_employee_groups_kept_witness :
    ("2024-01-05", 0) ∈ DataProcessor.getPatientsPerDay exEmptyEmp ∧
    ("2024-01", 0) ∈ DataProcessor.getPatientsPerMonth exEmptyEmp := by
  have h := C10_empty_employee_groups_kept exEmptyEmp ⟨2024, 1, 5, 0⟩
    ⟨{ date := some ⟨2024, 1, 5, 0⟩ }, List.mem_singleton.mpr rfl, rfl⟩
  have hday := h.1 (by
    intro r hr d2 hd2 hfmt
    have : r = { date := some ⟨2024, 1, 5, 0⟩ } := List.mem_singleton.mp hr
    rw [this])
  have hmonth := h.2 (by
    intro r hr d2 hd2 hfmt
    have : r = { date := some ⟨2024, 1, 5, 0⟩ } := List.mem_singleton.mp hr
    rw [this])
  constructor
  · have hkey : DataProcessor.formatDateKey ⟨2024, 1, 5, 0⟩ = "2024-01-05" := by decide
    rwa [hkey] at hday
  · have hkey : DataProcessor.formatMonthKey ⟨2024, 1, 5, 0⟩ = "2024-01" := by decide
    rwa [hkey] at hmonth

/-- Concrete witness for the amended sex-distribution theorem: on the
counterexample dataset the group order is first-appearance order and
the `F` group counts its two distinct patients. -/
theorem C6_getSexDistribution_amended_witness :
    (DataProcessor.getSexDistribution exSexData).map Prod.fst =
      jsKeyOrder (firstKeys (fun r => some (DataProcessor.sexKey r)) exSexData []) ∧
    (2 : Nat) = DataProcessor.distinctPatients
      (exSexData.filter (fun r => decide (DataProcessor.sexKey r = "F"))) := by
  have h := C6_getSexDistribution_amended exSexData
  exact ⟨h.1, h.2 ("F", 2) (by decide)⟩
